import Mathlib

/-!
Verification of the ve-urpc core against its natural-language specification.

The development shallowly embeds the C sources
(src/urpc_common.c, src/vh_urpc.c) and the host-side context engine
(src/aveo/src/ThreadContext.cpp).  Machine integers are modelled as Nat
with explicit reductions modulo 2^w at the operations where the C code
performs fixed-width arithmetic.  The repository header urpc_common.h is
not part of the sources; the constants and macros it provides
(URPC_LEN_MB, URPC_DATA_BUFF_LEN, REQ2SLOT, ALIGN8B, ...) are modelled
from the specification text and marked as such.
-/

set_option maxRecDepth 20000

namespace VeUrpc

/-- Modelled from the spec: number of mailbox slots per transfer queue
(URPC_LEN_MB in the missing header). The spec fixes N as a power of two,
e.g. 256. -/
def URPC_LEN_MB : Nat := 256

/-- Modelled from the spec: size in bytes of one direction's data ring
(URPC_DATA_BUFF_LEN in the missing header); the spec says several MiB. -/
def URPC_DATA_BUFF_LEN : Nat := 4 * 1024 * 1024

/-- Modelled from the spec: command code 0 means empty/done. -/
def URPC_CMD_NONE : Nat := 0

/-- Modelled from the spec: highest registrable command code
(URPC_MAX_HANDLERS in the missing header). -/
def URPC_MAX_HANDLERS : Nat := 64

/-- Modelled from the spec: allocation deadline in microseconds
(URPC_ALLOC_TIMEOUT_US in the missing header, "configurable, default a
few seconds"). -/
def URPC_ALLOC_TIMEOUT_US : Nat := 2000000

/-- Reduction modulo 2^32: the value of a C uint32_t computation. -/
def wrap32 (x : Nat) : Nat := x % 4294967296

/-- uint32 subtraction a - b (wrapping), as performed by the C code on
free_end - free_begin. -/
def sub32 (a b : Nat) : Nat :=
  (a % 4294967296 + (4294967296 - b % 4294967296)) % 4294967296

/-- Modelled from the spec: ALIGN8B rounds a uint32 byte count up to the
next multiple of 8 (macro in the missing header), in 32-bit arithmetic. -/
def ALIGN8B (x : Nat) : Nat := ((x + 7) % 4294967296) / 8 * 8

/-- Modelled from the spec: REQ2SLOT(req) = req mod N, applied to the
signed 64-bit request counter. -/
def REQ2SLOT (req : Int) : Fin URPC_LEN_MB :=
  ⟨(req % (URPC_LEN_MB : Int)).toNat, by
    have h : (0 : Int) < (URPC_LEN_MB : Int) := by decide
    have h2 := Int.emod_lt_of_pos req h
    have h3 := Int.emod_nonneg req (by decide : (URPC_LEN_MB : Int) ≠ 0)
    omega⟩

/-- Modelled from the spec: REQ2SLOT applied to an unsigned 32-bit value
(as in _gc_buffer, which truncates last_put_req to uint32 first). -/
def REQ2SLOT32 (req : Nat) : Fin URPC_LEN_MB :=
  ⟨req % URPC_LEN_MB, Nat.mod_lt _ (by decide)⟩

/-- One mailbox slot: a 64-bit word with bit fields
cmd:8, offs:24, len:32 (urpc_mb_t). -/
structure urpc_mb where
  cmd : Nat
  offs : Nat
  len : Nat
deriving DecidableEq

/-- The all-zero mailbox word. -/
def urpc_mb.zero : urpc_mb := ⟨0, 0, 0⟩

/-- One payload bookkeeping entry of the sender-side side table
(mlist_t): offset and length of the payload sent from a given slot. -/
structure mlist_b where
  offs : Nat
  len : Nat
deriving DecidableEq

/-- The cleared mlist entry (ml->u64 = 0). -/
def mlist_b.zero : mlist_b := ⟨0, 0⟩

/-- The shared-memory transfer queue header of one direction
(transfer_queue_t): N mailbox slots, two flag words and the two 64-bit
sequence counters.  The data byte ring itself is not needed by any
claim and is not carried here. -/
structure transfer_queue where
  mb : Fin URPC_LEN_MB → urpc_mb
  sender_flags : Nat
  receiver_flags : Nat
  last_put_req : Int
  last_get_req : Int

/-- Sender-side communicator state (urpc_comm_t): the attached transfer
queue, the mlist side table and the bump-allocator interval. -/
structure urpc_comm where
  tq : transfer_queue
  mlist : Fin URPC_LEN_MB → mlist_b
  free_begin : Nat
  free_end : Nat

/-- One initialization-loop body of vh_urpc_comm_init: clear mlist[i]
and write 0 to mailbox slot i. -/
def initSlot (u : urpc_comm) (i : Fin URPC_LEN_MB) : urpc_comm :=
  { u with mlist := Function.update u.mlist i mlist_b.zero,
           tq := { u.tq with mb := Function.update u.tq.mb i urpc_mb.zero } }

/-- vh_urpc_comm_init (src/vh_urpc.c:22): loop over all slots clearing
mlist and mailbox, then reset flags, set both counters to -1 and make
the whole data ring free. -/
def vh_urpc_comm_init (uc : urpc_comm) : urpc_comm :=
  let uc1 := (List.finRange URPC_LEN_MB).foldl initSlot uc
  { uc1 with
    tq := { uc1.tq with sender_flags := 0, receiver_flags := 0,
                        last_put_req := -1, last_get_req := -1 },
    free_begin := 0,
    free_end := URPC_DATA_BUFF_LEN }

/-- A convenient fully initialized communicator. -/
def initComm : urpc_comm :=
  vh_urpc_comm_init
    { tq := { mb := fun _ => urpc_mb.zero, sender_flags := 0,
              receiver_flags := 0, last_put_req := 0, last_get_req := 0 },
      mlist := fun _ => mlist_b.zero, free_begin := 0, free_end := 0 }

/-- The transfer-queue invariant used throughout: counters ordered and
at most N apart, and every slot of the outstanding window is
non-empty. -/
def TQInv (uc : urpc_comm) : Prop :=
  -1 ≤ uc.tq.last_get_req ∧
  uc.tq.last_get_req ≤ uc.tq.last_put_req ∧
  uc.tq.last_put_req ≤ uc.tq.last_get_req + URPC_LEN_MB ∧
  ∀ r : Int, uc.tq.last_get_req < r → r ≤ uc.tq.last_put_req →
    (uc.tq.mb (REQ2SLOT r)).cmd ≠ URPC_CMD_NONE

theorem initSlot_foldl_mem (l : List (Fin URPC_LEN_MB)) (u : urpc_comm) :
    ∀ s : Fin URPC_LEN_MB,
      (s ∈ l → (l.foldl initSlot u).mlist s = mlist_b.zero ∧
               (l.foldl initSlot u).tq.mb s = urpc_mb.zero) ∧
      (s ∉ l → (l.foldl initSlot u).mlist s = u.mlist s ∧
               (l.foldl initSlot u).tq.mb s = u.tq.mb s) := by
  induction l generalizing u with
  | nil => intro s; simp
  | cons a l ih =>
    intro s
    constructor
    · intro hs
      rcases List.mem_cons.mp hs with h | h
      · subst h
        by_cases hmem : s ∈ l
        · exact ((ih (initSlot u s) s).1 hmem)
        · have h2 := (ih (initSlot u s) s).2 hmem
          simp only [List.foldl_cons] at *
          refine ⟨h2.1.trans ?_, h2.2.trans ?_⟩
          · simp [initSlot]
          · simp [initSlot]
      · exact (ih (initSlot u a) s).1 h
    · intro hs
      have hna : s ≠ a := fun h => hs (h ▸ List.mem_cons_self a l)
      have hnl : s ∉ l := fun h => hs (List.mem_cons_of_mem a h)
      have h2 := (ih (initSlot u a) s).2 hnl
      simp only [List.foldl_cons]
      refine ⟨h2.1.trans ?_, h2.2.trans ?_⟩
      · simp [initSlot, Function.update_noteq hna]
      · simp [initSlot, Function.update_noteq hna]

theorem comm_init_mb (uc : urpc_comm) (s : Fin URPC_LEN_MB) :
    (vh_urpc_comm_init uc).tq.mb s = urpc_mb.zero ∧
    (vh_urpc_comm_init uc).mlist s = mlist_b.zero := by
  have h := (initSlot_foldl_mem (List.finRange URPC_LEN_MB) uc s).1
    (List.mem_finRange s)
  exact ⟨h.2, h.1⟩

/-- C10: after vh_urpc_comm_init, every mailbox slot is the all-zero
word (cmd = empty), every mlist entry is zero, both flag words are 0,
last_put_req = last_get_req = -1, free_begin = 0 and
free_end = URPC_DATA_BUFF_LEN, so the whole data ring is free and the
transfer-queue invariant holds. -/
theorem comm_init_initial_state (uc : urpc_comm) :
    (∀ s, (vh_urpc_comm_init uc).tq.mb s = urpc_mb.zero) ∧
    (∀ s, (vh_urpc_comm_init uc).mlist s = mlist_b.zero) ∧
    (vh_urpc_comm_init uc).tq.sender_flags = 0 ∧
    (vh_urpc_comm_init uc).tq.receiver_flags = 0 ∧
    (vh_urpc_comm_init uc).tq.last_put_req = -1 ∧
    (vh_urpc_comm_init uc).tq.last_get_req = -1 ∧
    (vh_urpc_comm_init uc).free_begin = 0 ∧
    (vh_urpc_comm_init uc).free_end = URPC_DATA_BUFF_LEN ∧
    sub32 (vh_urpc_comm_init uc).free_end (vh_urpc_comm_init uc).free_begin
      = URPC_DATA_BUFF_LEN ∧
    TQInv (vh_urpc_comm_init uc) := by
  refine ⟨fun s => (comm_init_mb uc s).1, fun s => (comm_init_mb uc s).2,
          rfl, rfl, rfl, rfl, rfl, rfl,
          by show sub32 URPC_DATA_BUFF_LEN 0 = URPC_DATA_BUFF_LEN; decide, ?_⟩
  refine ⟨le_refl _, le_refl _,
          by show (-1 : Int) ≤ -1 + (URPC_LEN_MB : Int); decide, ?_⟩
  intro r h1 h2
  have h1b : (-1 : Int) < r := h1
  have h2b : r ≤ (-1 : Int) := h2
  omega

/-- urpc_get_cmd (src/urpc_common.c:128): if last_put_req differs from
last_get_req, read the slot of request last_get_req + 1, advance
last_get_req and return the request id with the slot contents;
otherwise return none (the C function returns -1). -/
def urpc_get_cmd (tq : transfer_queue) : Option (Int × urpc_mb × transfer_queue) :=
  let last_put := tq.last_put_req
  let last_get := tq.last_get_req
  if last_put ≠ last_get then
    let req := last_get + 1
    let m := tq.mb (REQ2SLOT req)
    some (req, m, { tq with last_get_req := req })
  else
    none

/-- urpc_put_cmd (src/urpc_common.c:223): reserve request
last_put_req + 1; the C code spins while the target slot is busy, which
is modelled by returning none (the operation is not enabled).  If the
slot is free: possibly extend free_end by the slot's previous mlist
length, record the new payload region in mlist, publish the slot and
the new last_put_req. -/
def urpc_put_cmd (uc : urpc_comm) (m : urpc_mb) : Option (Int × urpc_comm) :=
  let req : Int := uc.tq.last_put_req + 1
  let slot := REQ2SLOT req
  if (uc.tq.mb slot).cmd ≠ URPC_CMD_NONE then
    none
  else
    let ml := uc.mlist slot
    let fe1 := if ml.len ≠ 0 ∧ uc.free_end < URPC_DATA_BUFF_LEN ∧ ml.offs = uc.free_end
               then wrap32 (uc.free_end + ml.len) else uc.free_end
    let ml1 : mlist_b := if m.len ≠ 0 then ⟨m.offs, m.len⟩ else mlist_b.zero
    some (req,
      { uc with free_end := fe1,
                mlist := Function.update uc.mlist slot ml1,
                tq := { uc.tq with mb := Function.update uc.tq.mb slot m,
                                   last_put_req := req } })

/-- urpc_slot_done (src/urpc_common.c:203): the receiver erases the
command field of the given slot, publishing the slot word with
cmd = URPC_CMD_NONE. -/
def urpc_slot_done (tq : transfer_queue) (slot : Fin URPC_LEN_MB) (m : urpc_mb) :
    transfer_queue :=
  { tq with mb := Function.update tq.mb slot { m with cmd := URPC_CMD_NONE } }

/-- A sender/receiver step on a single transfer-queue direction: either
urpc_put_cmd of a well-formed non-empty mailbox word (enabled only when
the target slot is free, since the C code spins otherwise), or
urpc_get_cmd (enabled only when a request is outstanding). -/
inductive TQStep : urpc_comm → urpc_comm → Prop
  | put (uc : urpc_comm) (m : urpc_mb) (req : Int) (uc2 : urpc_comm)
      (hcmd : m.cmd ≠ URPC_CMD_NONE) (hlt : m.cmd < 256)
      (h : urpc_put_cmd uc m = some (req, uc2)) : TQStep uc uc2
  | get (uc : urpc_comm) (req : Int) (m : urpc_mb) (tq2 : transfer_queue)
      (h : urpc_get_cmd uc.tq = some (req, m, tq2)) :
      TQStep uc { uc with tq := tq2 }

/-- Reachability by put/get interleavings from a given state. -/
def TQReach (uc uc2 : urpc_comm) : Prop := Relation.ReflTransGen TQStep uc uc2

theorem REQ2SLOT_eq_iff (r s : Int) :
    REQ2SLOT r = REQ2SLOT s ↔ r % (URPC_LEN_MB : Int) = s % (URPC_LEN_MB : Int) := by
  constructor
  · intro h
    have h2 := congrArg Fin.val h
    simp only [REQ2SLOT] at h2
    have hr := Int.emod_nonneg r (by decide : (URPC_LEN_MB : Int) ≠ 0)
    have hs := Int.emod_nonneg s (by decide : (URPC_LEN_MB : Int) ≠ 0)
    omega
  · intro h
    simp only [REQ2SLOT, h]

theorem TQInv_step (uc uc2 : urpc_comm) (hstep : TQStep uc uc2) (hinv : TQInv uc) :
    TQInv uc2 := by
  have hN : ((URPC_LEN_MB : Nat) : Int) = 256 := by norm_num [URPC_LEN_MB]
  obtain ⟨h0, h1, h2, h3⟩ := hinv
  cases hstep with
  | put m req uc2 hcmd hlt h =>
    rw [urpc_put_cmd] at h
    by_cases hbusy : (uc.tq.mb (REQ2SLOT (uc.tq.last_put_req + 1))).cmd ≠ URPC_CMD_NONE
    · rw [if_pos hbusy] at h
      exact absurd h (by simp)
    · rw [if_neg hbusy] at h
      have hfree : (uc.tq.mb (REQ2SLOT (uc.tq.last_put_req + 1))).cmd = URPC_CMD_NONE := by
        by_contra hc; exact hbusy hc
      rw [hN] at h2
      -- the window is strictly shorter than N: otherwise the target slot
      -- coincides with the oldest outstanding slot, which is non-empty
      have hlen : uc.tq.last_put_req < uc.tq.last_get_req + 256 := by
        rcases lt_or_eq_of_le h2 with h4 | h4
        · exact h4
        · exfalso
          have hmem : REQ2SLOT (uc.tq.last_put_req + 1)
              = REQ2SLOT (uc.tq.last_get_req + 1) := by
            rw [REQ2SLOT_eq_iff, hN]
            omega
          have hne := h3 (uc.tq.last_get_req + 1) (by omega) (by omega)
          rw [← hmem] at hne
          exact hne hfree
      have hp := Option.some.inj h
      have hreq := congrArg Prod.fst hp
      have huc2 := congrArg Prod.snd hp
      dsimp only at hreq huc2
      subst huc2
      refine ⟨?_, ?_, ?_, ?_⟩
      · dsimp only; omega
      · dsimp only; omega
      · dsimp only; rw [hN]; omega
      · intro r hr1 hr2
        dsimp only at hr1 hr2 ⊢
        by_cases hr : r = uc.tq.last_put_req + 1
        · subst hr
          rw [Function.update_same]
          exact hcmd
        · have hrle : r ≤ uc.tq.last_put_req := by omega
          have hne : REQ2SLOT r ≠ REQ2SLOT (uc.tq.last_put_req + 1) := by
            rw [Ne, REQ2SLOT_eq_iff, hN]
            intro hmod
            omega
          rw [Function.update_noteq hne]
          exact h3 r hr1 hrle
  | get req m tq2 h =>
    rw [urpc_get_cmd] at h
    by_cases hne : uc.tq.last_put_req ≠ uc.tq.last_get_req
    · rw [if_pos hne] at h
      have hp := Option.some.inj h
      have htq := congrArg (fun x => x.2.2) hp
      dsimp only at htq
      subst htq
      refine ⟨?_, ?_, ?_, ?_⟩
      · dsimp only; omega
      · dsimp only; omega
      · dsimp only; omega
      · intro r hr1 hr2
        dsimp only at hr1 hr2 ⊢
        exact h3 r (by omega) hr2
    · rw [if_neg hne] at h
      exact absurd h (by simp)

theorem TQInv_reach (uc uc2 : urpc_comm) (h : TQReach uc uc2) (hinv : TQInv uc) :
    TQInv uc2 := by
  induction h with
  | refl => exact hinv
  | tail _ hstep ih => exact TQInv_step _ _ hstep ih

/-- Each step changes a slot's cmd field only from empty to non-empty or
from non-empty to empty. -/
theorem TQStep_slot_legal (uc uc2 : urpc_comm) (hstep : TQStep uc uc2)
    (s : Fin URPC_LEN_MB) (hchanged : (uc.tq.mb s).cmd ≠ (uc2.tq.mb s).cmd) :
    ((uc.tq.mb s).cmd = URPC_CMD_NONE ∧ (uc2.tq.mb s).cmd ≠ URPC_CMD_NONE) ∨
    ((uc.tq.mb s).cmd ≠ URPC_CMD_NONE ∧ (uc2.tq.mb s).cmd = URPC_CMD_NONE) := by
  cases hstep with
  | put m req uc2 hcmd hlt h =>
    rw [urpc_put_cmd] at h
    by_cases hbusy : (uc.tq.mb (REQ2SLOT (uc.tq.last_put_req + 1))).cmd ≠ URPC_CMD_NONE
    · rw [if_pos hbusy] at h
      exact absurd h (by simp)
    · rw [if_neg hbusy] at h
      have hp := Option.some.inj h
      have huc2 := congrArg Prod.snd hp
      dsimp only at huc2
      subst huc2
      dsimp only at hchanged ⊢
      by_cases hs : s = REQ2SLOT (uc.tq.last_put_req + 1)
      · subst hs
        rw [Function.update_same] at hchanged ⊢
        left
        constructor
        · by_contra hc; exact hbusy hc
        · exact hcmd
      · rw [Function.update_noteq hs] at hchanged
        exact absurd rfl hchanged
  | get req m tq2 h =>
    rw [urpc_get_cmd] at h
    by_cases hne : uc.tq.last_put_req ≠ uc.tq.last_get_req
    · rw [if_pos hne] at h
      have hp := Option.some.inj h
      have htq := congrArg (fun x => x.2.2) hp
      dsimp only at htq
      subst htq
      dsimp only at hchanged
      exact absurd rfl hchanged
    · rw [if_neg hne] at h
      exact absurd h (by simp)

/-- C4: along any sequence of urpc_put_cmd / urpc_get_cmd steps from the
initialized state, last_get_req ≤ last_put_req ≤ last_get_req + N, and
any change of a slot's cmd field in a further step is a legal transition
of the cycle empty -> non-empty -> empty. -/
theorem tq_put_get_invariant (uc : urpc_comm) (h : TQReach initComm uc) :
    (uc.tq.last_get_req ≤ uc.tq.last_put_req ∧
     uc.tq.last_put_req ≤ uc.tq.last_get_req + URPC_LEN_MB) ∧
    (∀ uc2, TQStep uc uc2 → ∀ s : Fin URPC_LEN_MB,
      (uc.tq.mb s).cmd ≠ (uc2.tq.mb s).cmd →
      ((uc.tq.mb s).cmd = URPC_CMD_NONE ∧ (uc2.tq.mb s).cmd ≠ URPC_CMD_NONE) ∨
      ((uc.tq.mb s).cmd ≠ URPC_CMD_NONE ∧ (uc2.tq.mb s).cmd = URPC_CMD_NONE)) := by
  have hinv0 : TQInv initComm := (comm_init_initial_state _).2.2.2.2.2.2.2.2.2
  have hinv := TQInv_reach _ _ h hinv0
  exact ⟨⟨hinv.2.1, hinv.2.2.1⟩, fun uc2 hstep s => TQStep_slot_legal uc uc2 hstep s⟩

/-- Witness for tq_put_get_invariant at the initialized state itself. -/
theorem tq_put_get_invariant_witness :
    TQReach initComm initComm ∧
    ((initComm.tq.last_get_req ≤ initComm.tq.last_put_req ∧
      initComm.tq.last_put_req ≤ initComm.tq.last_get_req + URPC_LEN_MB) ∧
     (∀ uc2, TQStep initComm uc2 → ∀ s : Fin URPC_LEN_MB,
       (initComm.tq.mb s).cmd ≠ (uc2.tq.mb s).cmd →
       ((initComm.tq.mb s).cmd = URPC_CMD_NONE ∧ (uc2.tq.mb s).cmd ≠ URPC_CMD_NONE) ∨
       ((initComm.tq.mb s).cmd ≠ URPC_CMD_NONE ∧ (uc2.tq.mb s).cmd = URPC_CMD_NONE))) :=
  ⟨Relation.ReflTransGen.refl,
   tq_put_get_invariant initComm Relation.ReflTransGen.refl⟩

/-- The slot the reclamation walk of _gc_buffer visits at loop index i:
(last_slot + i) % URPC_LEN_MB. -/
def gcSlotOf (last_slot : Fin URPC_LEN_MB) (i : Nat) : Fin URPC_LEN_MB :=
  ⟨(last_slot.val + i) % URPC_LEN_MB, Nat.mod_lt _ (by decide)⟩

/-- The slot of the most recently published request, as _gc_buffer
computes it: last_put_req truncated to uint32, then REQ2SLOT. -/
def gcLastSlot (uc : urpc_comm) : Fin URPC_LEN_MB :=
  REQ2SLOT32 ((uc.tq.last_put_req % (4294967296 : Int)).toNat)

/-- One iteration of the reclamation walk of _gc_buffer
(src/urpc_common.c:45): if the visited slot's mailbox word is empty and
its mlist entry has positive length, set free_end to
ALIGN8B(offs + len) provided free_end < URPC_DATA_BUFF_LEN, then clear
the mlist entry and write 0 to the mailbox word. -/
def gcStep (last_slot : Fin URPC_LEN_MB) (uc : urpc_comm) (i : Nat) : urpc_comm :=
  let slot := gcSlotOf last_slot i
  let ml := uc.mlist slot
  let m := uc.tq.mb slot
  if m.cmd = URPC_CMD_NONE ∧ ml.len > 0 then
    { uc with
      free_end := if uc.free_end < URPC_DATA_BUFF_LEN
                  then ALIGN8B (ml.offs + ml.len) else uc.free_end,
      mlist := Function.update uc.mlist slot mlist_b.zero,
      tq := { uc.tq with mb := Function.update uc.tq.mb slot urpc_mb.zero } }
  else
    uc

/-- The ring-wrap phase of _gc_buffer (src/urpc_common.c:34): when
free_end has reached the end of the data buffer, attribute the tail
fragment to the most recently published slot's mlist entry and reset
the free interval to the ring start. -/
def gcWrap (last_slot : Fin URPC_LEN_MB) (uc : urpc_comm) : urpc_comm :=
  if uc.free_end = URPC_DATA_BUFF_LEN then
    let ml := uc.mlist last_slot
    let offs1 := if ml.len = 0 then uc.free_begin else ml.offs
    { uc with
      mlist := Function.update uc.mlist last_slot ⟨offs1, sub32 uc.free_end offs1⟩,
      free_begin := 0,
      free_end := 0 }
  else
    uc

/-- _gc_buffer (src/urpc_common.c:27): run the wrap phase, then walk all
N slots in submission order starting immediately after the last
published slot, reclaiming finished payload regions; return the new
state together with the new free byte count (uint32 difference
free_end - free_begin). -/
def _gc_buffer (uc : urpc_comm) : urpc_comm × Nat :=
  let last_slot := gcLastSlot uc
  let uc1 := gcWrap last_slot uc
  let uc2 := (List.range' 1 URPC_LEN_MB).foldl (gcStep last_slot) uc1
  (uc2, sub32 uc2.free_end uc2.free_begin)

/-- A state exhibiting that the walk does not stop at a live slot:
slot 0 (the first visited, since last_put_req = -1 gives last slot 255)
is still live, while slot 1 is finished with a recorded payload. -/
def gcCexState : urpc_comm :=
  { tq := { mb := fun s => if s.val = 0 then ⟨1, 0, 8⟩ else urpc_mb.zero,
            sender_flags := 0, receiver_flags := 0,
            last_put_req := -1, last_get_req := -1 },
    mlist := fun s => if s.val = 0 then ⟨0, 8⟩
                      else if s.val = 1 then ⟨8, 8⟩ else mlist_b.zero,
    free_begin := 0,
    free_end := 0 }

/-- C3 counterexample: in gcCexState the first slot visited by the walk
(slot 0) is still live, yet _gc_buffer goes on to reclaim slot 1 behind
it: free_end is extended to 16 and slot 1's mlist entry is cleared,
contradicting the claim that the walk stops extending as soon as a
still-live slot is encountered. -/
theorem gc_does_not_stop_at_live_slot :
    (gcCexState.tq.mb ⟨0, by decide⟩).cmd ≠ URPC_CMD_NONE ∧
    gcCexState.mlist ⟨1, by decide⟩ = ⟨8, 8⟩ ∧
    gcCexState.free_end = 0 ∧
    (_gc_buffer gcCexState).1.free_end = 16 ∧
    (_gc_buffer gcCexState).1.mlist ⟨1, by decide⟩ = mlist_b.zero := by
  refine ⟨by decide, by decide, by decide, ?_, ?_⟩ <;> decide

/-- The reclamation condition of the walk: mailbox word empty and mlist
length positive. -/
def gcQualB (uc : urpc_comm) (s : Fin URPC_LEN_MB) : Bool :=
  decide ((uc.tq.mb s).cmd = URPC_CMD_NONE ∧ (uc.mlist s).len > 0)

/-- The value the walk assigns to free_end when reclaiming slot s. -/
def gcVal (uc : urpc_comm) (s : Fin URPC_LEN_MB) : Nat :=
  ALIGN8B ((uc.mlist s).offs + (uc.mlist s).len)

theorem gcWalk_foldl (L : Fin URPC_LEN_MB) (l : List Nat) (uc0 : urpc_comm) :
    ∀ uc : urpc_comm,
    (l.map (gcSlotOf L)).Nodup →
    uc.free_end < URPC_DATA_BUFF_LEN →
    (∀ i ∈ l, uc.mlist (gcSlotOf L i) = uc0.mlist (gcSlotOf L i) ∧
              uc.tq.mb (gcSlotOf L i) = uc0.tq.mb (gcSlotOf L i)) →
    (∀ i ∈ l, gcQualB uc0 (gcSlotOf L i) = true →
              gcVal uc0 (gcSlotOf L i) < URPC_DATA_BUFF_LEN) →
    (∀ i ∈ l,
      (l.foldl (gcStep L) uc).mlist (gcSlotOf L i)
        = (if gcQualB uc0 (gcSlotOf L i) then mlist_b.zero
           else uc0.mlist (gcSlotOf L i)) ∧
      (l.foldl (gcStep L) uc).tq.mb (gcSlotOf L i)
        = (if gcQualB uc0 (gcSlotOf L i) then urpc_mb.zero
           else uc0.tq.mb (gcSlotOf L i))) ∧
    (∀ s : Fin URPC_LEN_MB, (∀ i ∈ l, gcSlotOf L i ≠ s) →
      (l.foldl (gcStep L) uc).mlist s = uc.mlist s ∧
      (l.foldl (gcStep L) uc).tq.mb s = uc.tq.mb s) ∧
    (l.foldl (gcStep L) uc).free_end
      = ((l.filter (fun i => gcQualB uc0 (gcSlotOf L i))).map
           (fun i => gcVal uc0 (gcSlotOf L i))).getLastD uc.free_end ∧
    (l.foldl (gcStep L) uc).free_end < URPC_DATA_BUFF_LEN ∧
    (l.foldl (gcStep L) uc).free_begin = uc.free_begin := by
  induction l with
  | nil =>
    intro uc _ hfe _ _
    refine ⟨by simp, by simp, by simp, hfe, rfl⟩
  | cons a l ih =>
    intro uc hnodup hfe hagree hal
    have hmap : (gcSlotOf L a) ∉ l.map (gcSlotOf L) ∧ (l.map (gcSlotOf L)).Nodup := by
      rw [List.map_cons] at hnodup
      exact List.nodup_cons.mp hnodup
    have hnd1 := hmap.2
    have hane : ∀ i ∈ l, gcSlotOf L a ≠ gcSlotOf L i := by
      intro i hi heq
      exact hmap.1 (heq ▸ List.mem_map_of_mem (gcSlotOf L) hi)
    have haga := hagree a (List.mem_cons_self a l)
    by_cases hqa : gcQualB uc0 (gcSlotOf L a) = true
    · -- slot a is reclaimed
      have hq : (uc.tq.mb (gcSlotOf L a)).cmd = URPC_CMD_NONE ∧
                (uc.mlist (gcSlotOf L a)).len > 0 := by
        rw [haga.1, haga.2]
        exact of_decide_eq_true hqa
      have hval : ALIGN8B ((uc.mlist (gcSlotOf L a)).offs +
                           (uc.mlist (gcSlotOf L a)).len)
          = gcVal uc0 (gcSlotOf L a) := by
        rw [gcVal, haga.1]
      have hfe_eq : (gcStep L uc a).free_end = gcVal uc0 (gcSlotOf L a) := by
        simp only [gcStep]
        rw [if_pos hq]
        dsimp only
        rw [if_pos hfe]
        exact hval
      have hml_eq : (gcStep L uc a).mlist
          = Function.update uc.mlist (gcSlotOf L a) mlist_b.zero := by
        simp only [gcStep]
        rw [if_pos hq]
      have hmb_eq : (gcStep L uc a).tq.mb
          = Function.update uc.tq.mb (gcSlotOf L a) urpc_mb.zero := by
        simp only [gcStep]
        rw [if_pos hq]
      have hfb_eq : (gcStep L uc a).free_begin = uc.free_begin := by
        simp only [gcStep]
        rw [if_pos hq]
      have hfe1 : (gcStep L uc a).free_end < URPC_DATA_BUFF_LEN := by
        rw [hfe_eq]
        exact hal a (List.mem_cons_self a l) hqa
      have hagree1 : ∀ i ∈ l,
          (gcStep L uc a).mlist (gcSlotOf L i) = uc0.mlist (gcSlotOf L i) ∧
          (gcStep L uc a).tq.mb (gcSlotOf L i) = uc0.tq.mb (gcSlotOf L i) := by
        intro i hi
        rw [hml_eq, hmb_eq,
            Function.update_noteq (hane i hi).symm,
            Function.update_noteq (hane i hi).symm]
        exact hagree i (List.mem_cons_of_mem a hi)
      have hal1 : ∀ i ∈ l, gcQualB uc0 (gcSlotOf L i) = true →
                  gcVal uc0 (gcSlotOf L i) < URPC_DATA_BUFF_LEN :=
        fun i hi => hal i (List.mem_cons_of_mem a hi)
      obtain ⟨ihm, ihu, ihf, ihlt, ihb⟩ := ih (gcStep L uc a) hnd1 hfe1 hagree1 hal1
      have hfold : (a :: l).foldl (gcStep L) uc = l.foldl (gcStep L) (gcStep L uc a) := by
        rw [List.foldl_cons]
      refine ⟨?_, ?_, ?_, ?_, ?_⟩
      · intro i hi
        rcases List.mem_cons.mp hi with h | h
        · subst h
          rw [hfold]
          have huntouched := ihu (gcSlotOf L i)
            (fun j hj heq => hane j hj heq.symm)
          rw [huntouched.1, huntouched.2, hml_eq, hmb_eq,
              Function.update_same, Function.update_same, if_pos hqa, if_pos hqa]
          exact ⟨rfl, rfl⟩
        · rw [hfold]
          exact ihm i h
      · intro s hs
        rw [hfold]
        have h1 := ihu s (fun j hj => hs j (List.mem_cons_of_mem a hj))
        rw [h1.1, h1.2, hml_eq, hmb_eq,
            Function.update_noteq (Ne.symm (hs a (List.mem_cons_self a l))),
            Function.update_noteq (Ne.symm (hs a (List.mem_cons_self a l)))]
        exact ⟨rfl, rfl⟩
      · rw [hfold, ihf, hfe_eq]
        simp only [List.filter_cons]
        rw [if_pos hqa, List.map_cons, List.getLastD_cons]
      · rw [hfold]
        exact ihlt
      · rw [hfold, ihb, hfb_eq]
    · -- slot a is skipped
      have hq : ¬ ((uc.tq.mb (gcSlotOf L a)).cmd = URPC_CMD_NONE ∧
                   (uc.mlist (gcSlotOf L a)).len > 0) := by
        rw [haga.1, haga.2]
        intro hc
        exact hqa (decide_eq_true hc)
      have hstep : gcStep L uc a = uc := by
        simp only [gcStep]
        rw [if_neg hq]
      have hfold : (a :: l).foldl (gcStep L) uc = l.foldl (gcStep L) uc := by
        rw [List.foldl_cons, hstep]
      have hagree1 : ∀ i ∈ l,
          uc.mlist (gcSlotOf L i) = uc0.mlist (gcSlotOf L i) ∧
          uc.tq.mb (gcSlotOf L i) = uc0.tq.mb (gcSlotOf L i) :=
        fun i hi => hagree i (List.mem_cons_of_mem a hi)
      have hal1 : ∀ i ∈ l, gcQualB uc0 (gcSlotOf L i) = true →
                  gcVal uc0 (gcSlotOf L i) < URPC_DATA_BUFF_LEN :=
        fun i hi => hal i (List.mem_cons_of_mem a hi)
      obtain ⟨ihm, ihu, ihf, ihlt, ihb⟩ := ih uc hnd1 hfe hagree1 hal1
      refine ⟨?_, ?_, ?_, ?_, ?_⟩
      · intro i hi
        rcases List.mem_cons.mp hi with h | h
        · subst h
          rw [hfold]
          have huntouched := ihu (gcSlotOf L i)
            (fun j hj heq => hane j hj heq.symm)
          rw [huntouched.1, huntouched.2, if_neg (by simp [hqa]), if_neg (by simp [hqa])]
          exact ⟨haga.1, haga.2⟩
        · rw [hfold]
          exact ihm i h
      · intro s hs
        rw [hfold]
        exact ihu s (fun j hj => hs j (List.mem_cons_of_mem a hj))
      · rw [hfold, ihf]
        simp only [List.filter_cons]
        rw [if_neg hqa]
      · rw [hfold]
        exact ihlt
      · rw [hfold]
        exact ihb

theorem gcSlotOf_nodup (L : Fin URPC_LEN_MB) :
    ((List.range' 1 URPC_LEN_MB).map (gcSlotOf L)).Nodup := by
  refine List.Nodup.map_on ?_ (List.nodup_range' 1 URPC_LEN_MB)
  intro i hi j hj heq
  have hi2 : 1 ≤ i ∧ i < 1 + URPC_LEN_MB := by
    have := List.mem_range'_1.mp hi
    exact this
  have hj2 : 1 ≤ j ∧ j < 1 + URPC_LEN_MB := by
    have := List.mem_range'_1.mp hj
    exact this
  have hval := congrArg Fin.val heq
  simp only [gcSlotOf] at hval
  have hL := L.isLt
  revert hval hi2 hj2 hL
  simp only [URPC_LEN_MB]
  omega

/-- C3 (amended): when free_end is below the buffer end (no ring-wrap
pending) and every reclaimable region ends inside the buffer,
_gc_buffer walks all N slots in submission order starting immediately
after the most recently published slot L; every visited slot whose
mailbox cmd is empty and whose mlist length is positive has its mlist
entry cleared (and its mailbox word zeroed) and free_end set to
ALIGN8B(mlist.offs + mlist.len); slots that are still live are skipped
but do not stop the walk, so free_end ends as the value of the last
finished slot of the whole walk (or stays unchanged when there is
none), and the returned free count is free_end - free_begin. -/
theorem gc_buffer_walk (uc : urpc_comm)
    (hfe : uc.free_end < URPC_DATA_BUFF_LEN)
    (hal : ∀ i ∈ List.range' 1 URPC_LEN_MB,
      gcQualB uc (gcSlotOf (gcLastSlot uc) i) = true →
      gcVal uc (gcSlotOf (gcLastSlot uc) i) < URPC_DATA_BUFF_LEN) :
    (∀ i ∈ List.range' 1 URPC_LEN_MB,
      (_gc_buffer uc).1.mlist (gcSlotOf (gcLastSlot uc) i)
        = (if gcQualB uc (gcSlotOf (gcLastSlot uc) i) then mlist_b.zero
           else uc.mlist (gcSlotOf (gcLastSlot uc) i)) ∧
      (_gc_buffer uc).1.tq.mb (gcSlotOf (gcLastSlot uc) i)
        = (if gcQualB uc (gcSlotOf (gcLastSlot uc) i) then urpc_mb.zero
           else uc.tq.mb (gcSlotOf (gcLastSlot uc) i))) ∧
    (_gc_buffer uc).1.free_end
      = (((List.range' 1 URPC_LEN_MB).filter
            (fun i => gcQualB uc (gcSlotOf (gcLastSlot uc) i))).map
           (fun i => gcVal uc (gcSlotOf (gcLastSlot uc) i))).getLastD uc.free_end ∧
    (_gc_buffer uc).1.free_begin = uc.free_begin ∧
    (_gc_buffer uc).2 = sub32 (_gc_buffer uc).1.free_end uc.free_begin := by
  have hwrap : gcWrap (gcLastSlot uc) uc = uc := by
    rw [gcWrap, if_neg (by omega)]
  have hmain := gcWalk_foldl (gcLastSlot uc) (List.range' 1 URPC_LEN_MB) uc uc
    (gcSlotOf_nodup _) hfe (fun i _ => ⟨rfl, rfl⟩) hal
  obtain ⟨ihm, ihu, ihf, ihlt, ihb⟩ := hmain
  have hgc1 : (_gc_buffer uc).1
      = (List.range' 1 URPC_LEN_MB).foldl (gcStep (gcLastSlot uc)) uc := by
    rw [_gc_buffer, hwrap]
  have hgc2 : (_gc_buffer uc).2
      = sub32 ((List.range' 1 URPC_LEN_MB).foldl (gcStep (gcLastSlot uc)) uc).free_end
              ((List.range' 1 URPC_LEN_MB).foldl (gcStep (gcLastSlot uc)) uc).free_begin := by
    rw [_gc_buffer, hwrap]
  refine ⟨?_, ?_, ?_, ?_⟩
  · intro i hi
    rw [hgc1]
    exact ihm i hi
  · rw [hgc1]
    exact ihf
  · rw [hgc1]
    exact ihb
  · rw [hgc2, hgc1, ihb]

/-- Witness for gc_buffer_walk: the freshly initialized communicator
with an empty free interval; no slot qualifies and free_end stays 0. -/
theorem gc_buffer_walk_witness :
    ({ initComm with free_end := 0 } : urpc_comm).free_end < URPC_DATA_BUFF_LEN ∧
    (∀ i ∈ List.range' 1 URPC_LEN_MB,
      gcQualB { initComm with free_end := 0 }
        (gcSlotOf (gcLastSlot { initComm with free_end := 0 }) i) = true →
      gcVal { initComm with free_end := 0 }
        (gcSlotOf (gcLastSlot { initComm with free_end := 0 }) i) < URPC_DATA_BUFF_LEN) ∧
    (_gc_buffer { initComm with free_end := 0 }).1.free_end
      = (((List.range' 1 URPC_LEN_MB).filter
            (fun i => gcQualB { initComm with free_end := 0 }
              (gcSlotOf (gcLastSlot { initComm with free_end := 0 }) i))).map
           (fun i => gcVal { initComm with free_end := 0 }
              (gcSlotOf (gcLastSlot { initComm with free_end := 0 }) i))).getLastD
          ({ initComm with free_end := 0 } : urpc_comm).free_end :=
  ⟨by decide, by decide,
   (gc_buffer_walk { initComm with free_end := 0 } (by decide) (by decide)).2.1⟩

/-- Result of _alloc_payload.  The C function returns 0 on failure from
two distinct places, distinguished here: timing out inside the wait
loop, and the post-loop out-of-space check.  spin marks fuel exhaustion
of the model while the C loop would still be iterating. -/
inductive AllocResult where
  | ok (mb : urpc_mb) (uc : urpc_comm)
  | timeout (uc : urpc_comm)
  | nospace (uc : urpc_comm)
  | spin (uc : urpc_comm)

/-- Result of the wait loop of _alloc_payload: normal exit (condition
false or break), timeout return, or fuel exhaustion of the model. -/
inductive AllocLoopRes where
  | timeout (uc : urpc_comm)
  | done (uc : urpc_comm)
  | spin (uc : urpc_comm)

/-- The wait loop of _alloc_payload (src/urpc_common.c:76): while the
free interval (uint32 difference) is smaller than asize, run
_gc_buffer; if the reclaimed free count is still below size, return
failure once the elapsed time exceeds URPC_ALLOC_TIMEOUT_US, else
retry; break out of the loop once the free count reaches size.
tick k is the k-th sample of timediff_us(ts); fuel bounds the number of
modelled iterations. -/
def allocLoop (size asize : Nat) (tick : Nat → Nat) :
    Nat → Nat → urpc_comm → AllocLoopRes
  | 0, _, uc =>
    if sub32 uc.free_end uc.free_begin < asize then AllocLoopRes.spin uc
    else AllocLoopRes.done uc
  | fuel + 1, k, uc =>
    if sub32 uc.free_end uc.free_begin < asize then
      let g := _gc_buffer uc
      if g.2 < size then
        if tick k > URPC_ALLOC_TIMEOUT_US then AllocLoopRes.timeout g.1
        else allocLoop size asize tick fuel (k + 1) g.1
      else AllocLoopRes.done g.1
    else AllocLoopRes.done uc

/-- _alloc_payload (src/urpc_common.c:69): run the wait loop; then, if
free_begin + asize (uint32 sum) exceeds free_end, fail (out of space);
otherwise build the descriptor with offs = free_begin (24-bit field)
and len = size (32-bit field) and advance free_begin by ALIGN8B size. -/
def _alloc_payload (tick : Nat → Nat) (fuel : Nat) (uc : urpc_comm) (size : Nat) :
    AllocResult :=
  let asize := ALIGN8B size
  match allocLoop size asize tick fuel 0 uc with
  | AllocLoopRes.timeout uc1 => AllocResult.timeout uc1
  | AllocLoopRes.spin uc1 => AllocResult.spin uc1
  | AllocLoopRes.done uc1 =>
    if wrap32 (uc1.free_begin + asize) > uc1.free_end then
      AllocResult.nospace uc1
    else
      AllocResult.ok ⟨0, uc1.free_begin % 16777216, size % 4294967296⟩
        { uc1 with free_begin := wrap32 (uc1.free_begin + ALIGN8B size) }

/-- n applications of the state effect of _gc_buffer. -/
def gcIter (n : Nat) (uc : urpc_comm) : urpc_comm :=
  (fun u => (_gc_buffer u).1)^[n] uc

theorem allocLoop_gcIter (size asize : Nat) (tick : Nat → Nat) :
    ∀ (fuel k : Nat) (uc uc1 : urpc_comm),
    (allocLoop size asize tick fuel k uc = AllocLoopRes.done uc1 →
      ∃ n, uc1 = gcIter n uc) ∧
    (allocLoop size asize tick fuel k uc = AllocLoopRes.timeout uc1 →
      (∃ n, uc1 = gcIter n uc) ∧ ∃ j, tick j > URPC_ALLOC_TIMEOUT_US) := by
  intro fuel
  induction fuel with
  | zero =>
    intro k uc uc1
    constructor
    · intro h
      rw [allocLoop] at h
      by_cases hc : sub32 uc.free_end uc.free_begin < asize
      · rw [if_pos hc] at h
        exact absurd h (by simp)
      · rw [if_neg hc] at h
        exact ⟨0, (AllocLoopRes.done.inj h).symm⟩
    · intro h
      rw [allocLoop] at h
      by_cases hc : sub32 uc.free_end uc.free_begin < asize
      · rw [if_pos hc] at h
        exact absurd h (by simp)
      · rw [if_neg hc] at h
        exact absurd h (by simp)
  | succ fuel ih =>
    intro k uc uc1
    have hgc1 : ∀ n, gcIter n (_gc_buffer uc).1 = gcIter (n + 1) uc := by
      intro n
      rw [gcIter, gcIter, Function.iterate_succ_apply]
    constructor
    · intro h
      rw [allocLoop] at h
      by_cases hc : sub32 uc.free_end uc.free_begin < asize
      · rw [if_pos hc] at h
        dsimp only at h
        by_cases hg : (_gc_buffer uc).2 < size
        · rw [if_pos hg] at h
          by_cases ht : tick k > URPC_ALLOC_TIMEOUT_US
          · rw [if_pos ht] at h
            exact absurd h (by simp)
          · rw [if_neg ht] at h
            obtain ⟨n, hn⟩ := (ih (k + 1) (_gc_buffer uc).1 uc1).1 h
            exact ⟨n + 1, by rw [hn, hgc1]⟩
        · rw [if_neg hg] at h
          refine ⟨1, ?_⟩
          rw [← (AllocLoopRes.done.inj h)]
          rw [gcIter, Function.iterate_one]
      · rw [if_neg hc] at h
        exact ⟨0, (AllocLoopRes.done.inj h).symm⟩
    · intro h
      rw [allocLoop] at h
      by_cases hc : sub32 uc.free_end uc.free_begin < asize
      · rw [if_pos hc] at h
        dsimp only at h
        by_cases hg : (_gc_buffer uc).2 < size
        · rw [if_pos hg] at h
          by_cases ht : tick k > URPC_ALLOC_TIMEOUT_US
          · rw [if_pos ht] at h
            refine ⟨⟨1, ?_⟩, ⟨k, ht⟩⟩
            rw [← (AllocLoopRes.timeout.inj h)]
            rw [gcIter, Function.iterate_one]
          · rw [if_neg ht] at h
            obtain ⟨⟨n, hn⟩, hj⟩ := (ih (k + 1) (_gc_buffer uc).1 uc1).2 h
            exact ⟨⟨n + 1, by rw [hn, hgc1]⟩, hj⟩
        · rw [if_neg hg] at h
          exact absurd h (by simp)
      · rw [if_neg hc] at h
        exact absurd h (by simp)

/-- C2 (amended): _alloc_payload transforms the communicator only by
iterating _gc_buffer; on success the returned descriptor has
offs = the post-loop free_begin (24-bit field), len = size, cmd empty,
and free_begin advances by asize = ALIGN8B size while free_end is
unchanged; a timeout failure occurs only after a timediff sample
exceeded URPC_ALLOC_TIMEOUT_US.  But, contrary to the claim, the
function can also fail without the deadline elapsing: when the loop
exits with free_begin + asize still beyond free_end (possible when gc
reclaims at least size but fewer than asize bytes), the post-loop check
fails the allocation immediately. -/
theorem alloc_payload_spec (tick : Nat → Nat) (fuel : Nat) (uc : urpc_comm)
    (size : Nat) (_hpos : 0 < size) (h32 : size < 4294967296) :
    (∀ mb uc2, _alloc_payload tick fuel uc size = AllocResult.ok mb uc2 →
      ∃ uc1, (∃ n, uc1 = gcIter n uc) ∧
        allocLoop size (ALIGN8B size) tick fuel 0 uc = AllocLoopRes.done uc1 ∧
        mb.cmd = URPC_CMD_NONE ∧
        mb.offs = uc1.free_begin % 16777216 ∧
        mb.len = size ∧
        uc2.free_begin = wrap32 (uc1.free_begin + ALIGN8B size) ∧
        uc2.free_end = uc1.free_end ∧
        wrap32 (uc1.free_begin + ALIGN8B size) ≤ uc1.free_end) ∧
    (∀ uc2, _alloc_payload tick fuel uc size = AllocResult.timeout uc2 →
      (∃ n, uc2 = gcIter n uc) ∧ ∃ j, tick j > URPC_ALLOC_TIMEOUT_US) ∧
    (∀ uc2, _alloc_payload tick fuel uc size = AllocResult.nospace uc2 →
      (∃ n, uc2 = gcIter n uc) ∧
      wrap32 (uc2.free_begin + ALIGN8B size) > uc2.free_end) := by
  refine ⟨?_, ?_, ?_⟩
  · intro mb uc2 h
    simp only [_alloc_payload] at h
    cases hres : allocLoop size (ALIGN8B size) tick fuel 0 uc with
    | timeout uc1 =>
      rw [hres] at h
      exact absurd h (by simp)
    | spin uc1 =>
      rw [hres] at h
      exact absurd h (by simp)
    | done uc1 =>
      rw [hres] at h
      dsimp only at h
      by_cases hchk : wrap32 (uc1.free_begin + ALIGN8B size) > uc1.free_end
      · rw [if_pos hchk] at h
        exact absurd h (by simp)
      · rw [if_neg hchk] at h
        have hmb := AllocResult.ok.inj h
        refine ⟨uc1, (allocLoop_gcIter size (ALIGN8B size) tick fuel 0 uc uc1).1 hres,
                rfl, ?_, ?_, ?_, ?_, ?_, ?_⟩
        · rw [← hmb.1]
          exact rfl
        · rw [← hmb.1]
        · rw [← hmb.1]
          exact Nat.mod_eq_of_lt h32
        · rw [← hmb.2]
        · rw [← hmb.2]
        · omega
  · intro uc2 h
    simp only [_alloc_payload] at h
    cases hres : allocLoop size (ALIGN8B size) tick fuel 0 uc with
    | timeout uc1 =>
      rw [hres] at h
      dsimp only at h
      rw [← AllocResult.timeout.inj h]
      exact (allocLoop_gcIter size (ALIGN8B size) tick fuel 0 uc uc1).2 hres
    | spin uc1 =>
      rw [hres] at h
      exact absurd h (by simp)
    | done uc1 =>
      rw [hres] at h
      dsimp only at h
      by_cases hchk : wrap32 (uc1.free_begin + ALIGN8B size) > uc1.free_end
      · rw [if_pos hchk] at h
        exact absurd h (by simp)
      · rw [if_neg hchk] at h
        exact absurd h (by simp)
  · intro uc2 h
    simp only [_alloc_payload] at h
    cases hres : allocLoop size (ALIGN8B size) tick fuel 0 uc with
    | timeout uc1 =>
      rw [hres] at h
      exact absurd h (by simp)
    | spin uc1 =>
      rw [hres] at h
      exact absurd h (by simp)
    | done uc1 =>
      rw [hres] at h
      dsimp only at h
      by_cases hchk : wrap32 (uc1.free_begin + ALIGN8B size) > uc1.free_end
      · rw [if_pos hchk] at h
        rw [← AllocResult.nospace.inj h]
        exact ⟨(allocLoop_gcIter size (ALIGN8B size) tick fuel 0 uc uc1).1 hres, hchk⟩
      · rw [if_neg hchk] at h
        exact absurd h (by simp)

/-- Witness for alloc_payload_spec: the fresh communicator, size 4,
fuel 1, constant zero clock. -/
theorem alloc_payload_spec_witness :
    0 < 4 ∧ 4 < 4294967296 ∧
    (∀ uc2, _alloc_payload (fun _ => 0) 1 initComm 4 = AllocResult.timeout uc2 →
      (∃ n, uc2 = gcIter n initComm) ∧
      ∃ j, (fun _ : Nat => 0) j > URPC_ALLOC_TIMEOUT_US) :=
  ⟨by decide, by decide,
   (alloc_payload_spec (fun _ => 0) 1 initComm 4 (by decide) (by decide)).2.1⟩

/-- A reachable-shaped allocator state with a 4-byte free interval and
nothing to reclaim. -/
def allocCexState : urpc_comm :=
  { tq := { mb := fun _ => urpc_mb.zero, sender_flags := 0, receiver_flags := 0,
            last_put_req := -1, last_get_req := -1 },
    mlist := fun _ => mlist_b.zero, free_begin := 0, free_end := 4 }

/-- C2 counterexample: with free interval [0, 4), size 4 (asize 8) and
a clock that never advances (every timediff sample is 0, so the
deadline URPC_ALLOC_TIMEOUT_US never elapses), _alloc_payload still
fails: gc reclaims nothing but reports 4 >= size free bytes, the loop
breaks, and the post-loop check free_begin + asize > free_end rejects
the allocation.  This contradicts the claim that the function fails
only when the deadline has elapsed. -/
theorem alloc_payload_early_failure :
    _alloc_payload (fun _ => 0) 1 allocCexState 4
      = AllocResult.nospace allocCexState ∧
    ¬ ((0 : Nat) > URPC_ALLOC_TIMEOUT_US) := by
  exact ⟨rfl, by decide⟩

/-- An RPC handler.  In the C code a handler receives the peer, the
mailbox word, the request id and the payload location, and may have
arbitrary side effects; the claims about urpc_recv_progress concern
only the returned error code, so handlers are modelled as pure
functions of the mailbox word and the request id. -/
def urpc_handler_func : Type := urpc_mb → Int → Int

/-- The peer (urpc_peer_t): send and recv communicators plus the
handler table, modelled as a total map from command code to optional
handler (NULL = none). -/
structure urpc_peer where
  send : urpc_comm
  recv : urpc_comm
  handler : Nat → Option urpc_handler_func

/-- Outstanding inbound requests of a transfer queue. -/
def tqAvail (tq : transfer_queue) : Nat :=
  (tq.last_put_req - tq.last_get_req).toNat

/-- The loop of urpc_recv_progress (src/urpc_common.c:346): while fewer
than ncmds requests are processed, pull the next command (stop when
none is pending), resolve and call the registered handler if any (an
error code is only logged), then mark the slot done and count the
request.  fuel is the remaining budget ncmds - done. -/
def recvProgressLoop : Nat → urpc_peer → Nat → Nat × urpc_peer
  | 0, up, done => (done, up)
  | fuel + 1, up, done =>
    match urpc_get_cmd up.recv.tq with
    | none => (done, up)
    | some (req, m, tq1) =>
      let _err : Int := match up.handler m.cmd with
                        | some f => f m req
                        | none => 0
      let tq2 := urpc_slot_done tq1 (REQ2SLOT req) m
      recvProgressLoop fuel { up with recv := { up.recv with tq := tq2 } } (done + 1)

/-- urpc_recv_progress (src/urpc_common.c:335): process at most ncmds
inbound requests and return the number processed with the new state. -/
def urpc_recv_progress (up : urpc_peer) (ncmds : Int) : Nat × urpc_peer :=
  recvProgressLoop ncmds.toNat up 0

theorem recvProgressLoop_spec :
    ∀ (fuel : Nat) (up : urpc_peer) (done : Nat),
    up.recv.tq.last_get_req ≤ up.recv.tq.last_put_req →
    (recvProgressLoop fuel up done).1 = done + min fuel (tqAvail up.recv.tq) ∧
    (∀ s, (recvProgressLoop fuel up done).2.recv.tq.mb s = up.recv.tq.mb s ∨
          ((recvProgressLoop fuel up done).2.recv.tq.mb s).cmd = URPC_CMD_NONE) ∧
    (∀ j : Nat, j < min fuel (tqAvail up.recv.tq) →
      ((recvProgressLoop fuel up done).2.recv.tq.mb
        (REQ2SLOT (up.recv.tq.last_get_req + 1 + j))).cmd = URPC_CMD_NONE) ∧
    (recvProgressLoop fuel up done).2.recv.tq.last_get_req
      = up.recv.tq.last_get_req + min fuel (tqAvail up.recv.tq) ∧
    (recvProgressLoop fuel up done).2.recv.tq.last_put_req
      = up.recv.tq.last_put_req ∧
    (recvProgressLoop fuel up done).2.send = up.send ∧
    (recvProgressLoop fuel up done).2.handler = up.handler ∧
    (∀ h2, (recvProgressLoop fuel { up with handler := h2 } done).1
             = (recvProgressLoop fuel up done).1 ∧
           (recvProgressLoop fuel { up with handler := h2 } done).2.recv
             = (recvProgressLoop fuel up done).2.recv) := by
  intro fuel
  induction fuel with
  | zero =>
    intro up done hle
    refine ⟨by rw [recvProgressLoop, Nat.zero_min, Nat.add_zero],
            fun s => Or.inl rfl, ?_, ?_, rfl, rfl, rfl, fun h2 => ⟨rfl, rfl⟩⟩
    · intro j hj
      rw [Nat.zero_min] at hj
      exact absurd hj (by omega)
    · rw [recvProgressLoop, Nat.zero_min]
      simp
  | succ fuel ih =>
    intro up done hle
    by_cases hav : up.recv.tq.last_put_req = up.recv.tq.last_get_req
    · -- nothing outstanding: get_cmd returns none
      have hget : urpc_get_cmd up.recv.tq = none := by
        rw [urpc_get_cmd, if_neg (not_not_intro hav)]
      have hav0 : tqAvail up.recv.tq = 0 := by
        rw [tqAvail, hav]
        simp
      have heq : recvProgressLoop (fuel + 1) up done = (done, up) := by
        rw [recvProgressLoop, hget]
      have heq2 : ∀ h2, recvProgressLoop (fuel + 1) { up with handler := h2 } done
          = (done, { up with handler := h2 }) := by
        intro h2
        have hget2 : urpc_get_cmd ({ up with handler := h2 } : urpc_peer).recv.tq = none := hget
        rw [recvProgressLoop, hget2]
      rw [heq]
      refine ⟨by rw [hav0]; simp, fun s => Or.inl rfl, by rw [hav0]; omega,
              by rw [hav0]; simp, rfl, rfl, rfl, fun h2 => ?_⟩
      rw [heq2 h2]
      exact ⟨rfl, rfl⟩
    · -- one request is pulled and processed
      have hget : urpc_get_cmd up.recv.tq
          = some (up.recv.tq.last_get_req + 1,
                  up.recv.tq.mb (REQ2SLOT (up.recv.tq.last_get_req + 1)),
                  { up.recv.tq with last_get_req := up.recv.tq.last_get_req + 1 }) := by
        rw [urpc_get_cmd, if_pos hav]
      set m := up.recv.tq.mb (REQ2SLOT (up.recv.tq.last_get_req + 1)) with hm
      set slot := REQ2SLOT (up.recv.tq.last_get_req + 1) with hslot
      set tq2 := urpc_slot_done
        { up.recv.tq with last_get_req := up.recv.tq.last_get_req + 1 } slot m with htq2
      set up1 : urpc_peer := { up with recv := { up.recv with tq := tq2 } } with hup1
      have hstep : recvProgressLoop (fuel + 1) up done
          = recvProgressLoop fuel up1 (done + 1) := by
        rw [recvProgressLoop, hget]
      have hstep2 : ∀ h2, recvProgressLoop (fuel + 1) { up with handler := h2 } done
          = recvProgressLoop fuel { up1 with handler := h2 } (done + 1) := by
        intro h2
        rw [recvProgressLoop]
        have hget2 : urpc_get_cmd ({ up with handler := h2 } : urpc_peer).recv.tq
            = some (up.recv.tq.last_get_req + 1, m,
                    { up.recv.tq with last_get_req := up.recv.tq.last_get_req + 1 }) := hget
        rw [hget2]
      have htq2mb : tq2.mb = Function.update up.recv.tq.mb slot { m with cmd := URPC_CMD_NONE } := by
        rw [htq2, urpc_slot_done]
      have htq2lg : tq2.last_get_req = up.recv.tq.last_get_req + 1 := by
        rw [htq2, urpc_slot_done]
      have htq2lp : tq2.last_put_req = up.recv.tq.last_put_req := by
        rw [htq2, urpc_slot_done]
      have hle1 : up1.recv.tq.last_get_req ≤ up1.recv.tq.last_put_req := by
        rw [hup1]
        dsimp only
        rw [htq2lg, htq2lp]
        omega
      have hav1 : tqAvail up1.recv.tq = tqAvail up.recv.tq - 1 := by
        rw [hup1]
        dsimp only
        rw [tqAvail, tqAvail, htq2lg, htq2lp]
        omega
      have havpos : 0 < tqAvail up.recv.tq := by
        rw [tqAvail]
        omega
      have hmin : min (fuel + 1) (tqAvail up.recv.tq)
          = min fuel (tqAvail up1.recv.tq) + 1 := by
        rw [hav1]
        omega
      obtain ⟨ih1, ih2, ih3, ih4, ih5, ih6, ih7, ih8⟩ := ih up1 (done + 1) hle1
      rw [hstep]
      refine ⟨?_, ?_, ?_, ?_, ?_, ?_, ?_, ?_⟩
      · rw [ih1, hmin]
        omega
      · intro s
        rcases ih2 s with h | h
        · rw [h, hup1]
          dsimp only
          rw [htq2mb]
          by_cases hs : s = slot
          · subst hs
            right
            rw [Function.update_same]
          · left
            rw [Function.update_noteq hs]
        · exact Or.inr h
      · intro j hj
        rcases Nat.eq_zero_or_pos j with hj0 | hjpos
        · subst hj0
          rcases ih2 slot with h | h
          · rw [show up.recv.tq.last_get_req + 1 + (0 : Nat) = up.recv.tq.last_get_req + 1 by omega,
                ← hslot, h, hup1]
            dsimp only
            rw [htq2mb, Function.update_same]
          · rw [show up.recv.tq.last_get_req + 1 + (0 : Nat) = up.recv.tq.last_get_req + 1 by omega,
                ← hslot]
            exact h
        · obtain ⟨j1, rfl⟩ := Nat.exists_eq_add_of_lt hjpos
          have hj1 : j1 < min fuel (tqAvail up1.recv.tq) := by omega
          have := ih3 j1 hj1
          have hidx : up1.recv.tq.last_get_req + 1 + (j1 : Int)
              = up.recv.tq.last_get_req + 1 + ((0 + j1 + 1 : Nat) : Int) := by
            rw [hup1]
            dsimp only
            rw [htq2lg]
            push_cast
            ring
          rw [hidx] at this
          exact this
      · rw [ih4, hup1]
        dsimp only
        rw [htq2lg, hmin]
        push_cast
        ring
      · rw [ih5, hup1]
        dsimp only
        rw [htq2lp]
      · rw [ih6, hup1]
      · rw [ih7, hup1]
      · intro h2
        rw [hstep2 h2]
        exact ih8 h2

/-- C7: urpc_recv_progress processes min(ncmds, outstanding) inbound
entries and returns that count; the count and the resulting recv state
do not depend on the handler table at all (handler errors only continue
the loop, unregistered codes are skipped); and every processed entry's
slot is freed (its cmd field is empty afterwards). -/
theorem recv_progress_spec (up : urpc_peer) (ncmds : Int)
    (hle : up.recv.tq.last_get_req ≤ up.recv.tq.last_put_req) :
    (urpc_recv_progress up ncmds).1 = min ncmds.toNat (tqAvail up.recv.tq) ∧
    (urpc_recv_progress up ncmds).1 ≤ ncmds.toNat ∧
    (∀ h2, (urpc_recv_progress { up with handler := h2 } ncmds).1
             = (urpc_recv_progress up ncmds).1 ∧
           (urpc_recv_progress { up with handler := h2 } ncmds).2.recv
             = (urpc_recv_progress up ncmds).2.recv) ∧
    (∀ j : Nat, j < (urpc_recv_progress up ncmds).1 →
      ((urpc_recv_progress up ncmds).2.recv.tq.mb
        (REQ2SLOT (up.recv.tq.last_get_req + 1 + j))).cmd = URPC_CMD_NONE) ∧
    (urpc_recv_progress up ncmds).2.recv.tq.last_get_req
      = up.recv.tq.last_get_req + (urpc_recv_progress up ncmds).1 ∧
    (urpc_recv_progress up ncmds).2.recv.tq.last_put_req
      = up.recv.tq.last_put_req ∧
    (urpc_recv_progress up ncmds).2.send = up.send := by
  obtain ⟨h1, h2, h3, h4, h5, h6, h7, h8⟩ :=
    recvProgressLoop_spec ncmds.toNat up 0 hle
  rw [urpc_recv_progress]
  refine ⟨by omega, by omega, ?_, ?_, ?_, h5, h6⟩
  · intro hh
    exact h8 hh
  · intro j hj
    exact h3 j (by omega)
  · rw [h4, h1]
    push_cast
    ring

/-- Witness for recv_progress_spec: the fresh peer with budget 3; no
requests are outstanding, so 0 are processed. -/
theorem recv_progress_spec_witness :
    (({ send := initComm, recv := initComm, handler := fun _ => none } :
        urpc_peer).recv.tq.last_get_req ≤
     ({ send := initComm, recv := initComm, handler := fun _ => none } :
        urpc_peer).recv.tq.last_put_req) ∧
    (urpc_recv_progress
       { send := initComm, recv := initComm, handler := fun _ => none } 3).1
      = min (3 : Int).toNat
          (tqAvail ({ send := initComm, recv := initComm,
                      handler := fun _ => none } : urpc_peer).recv.tq) :=
  ⟨le_refl _,
   (recv_progress_spec
     { send := initComm, recv := initComm, handler := fun _ => none } 3
     (le_refl _)).1⟩

/-- The loop of urpc_recv_progress_timeout (src/urpc_common.c:377):
repeat urpc_recv_progress; when an iteration processes nothing, set the
idle timestamp done_ts if not yet set, otherwise clear it; keep looping
while done_ts is unset or the idle time is below timeout_us.  tick k is
the clock sample (get_time_us) of iteration k, also used for the
timediff of the loop condition.  The C function is declared int but
falls off its end without any return statement, so the returned value
component of the model is none; the last component is the total number
of requests processed across the loop, which the specification says
should be returned. -/
def recvProgressTimeoutLoop (tick : Nat → Nat) (ncmds timeout_us : Int) :
    Nat → Nat → Int → urpc_peer → Nat → Option Nat × urpc_peer × Nat
  | 0, _, _, up, total => (none, up, total)
  | fuel + 1, k, done_ts, up, total =>
    let r := urpc_recv_progress up ncmds
    let total1 := total + r.1
    let ts1 : Int :=
      if r.1 = 0 then (if done_ts = 0 then (tick k : Int) else done_ts) else 0
    if ts1 = 0 ∨ (tick k : Int) - ts1 < timeout_us then
      recvProgressTimeoutLoop tick ncmds timeout_us fuel (k + 1) ts1 r.2 total1
    else
      (none, r.2, total1)

/-- urpc_recv_progress_timeout (src/urpc_common.c:374). -/
def urpc_recv_progress_timeout (tick : Nat → Nat) (fuel : Nat) (up : urpc_peer)
    (ncmds timeout_us : Int) : Option Nat × urpc_peer × Nat :=
  recvProgressTimeoutLoop tick ncmds timeout_us fuel 0 0 up 0

/-- A peer with exactly one outstanding inbound request (slot 0,
command 1, no payload) and no registered handlers. -/
def timeoutCexPeer : urpc_peer :=
  { send := allocCexState,
    recv := { tq := { mb := fun s => if s.val = 0 then ⟨1, 0, 0⟩ else urpc_mb.zero,
                      sender_flags := 0, receiver_flags := 0,
                      last_put_req := 0, last_get_req := -1 },
              mlist := fun _ => mlist_b.zero, free_begin := 0, free_end := 0 },
    handler := fun _ => none }

/-- C8: on a peer with one pending request, budget 1 and timeout 0, the
loop of urpc_recv_progress_timeout processes exactly 1 request in
total, but the function returns no value at all (the C source falls off
the end of the int-returning function without a return statement), so
the claimed return of the processed count does not happen. -/
theorem recv_progress_timeout_no_return :
    (urpc_recv_progress_timeout (fun k => k + 1) 3 timeoutCexPeer 1 0).1 = none ∧
    (urpc_recv_progress_timeout (fun k => k + 1) 3 timeoutCexPeer 1 0).2.2 = 1 :=
  ⟨rfl, rfl⟩

/-- Kind of a context command: remote VE call or host-side (VH)
command. -/
inductive CmdKind where
  | remote
  | vh
deriving DecidableEq

/-- A context command (internal::CommandImpl), abstracted to what the
progress loop observes: id, kind, and the return values its submit
thunk and its result thunk produce when invoked. -/
structure VCommand where
  id : Nat
  kind : CmdKind
  submit_rv : Int
  reply_rv : Int
deriving DecidableEq

/-- Modelled from the spec: the per-context command queues (class
CommQueue is not under src/) -- three FIFOs: pending requests,
in-flight, completions.  tryPopRequest/popInFlight pop the head,
pushInFlight/pushCompletion append. -/
structure CommQueue where
  request : List VCommand
  inflight : List VCommand
  completion : List VCommand
deriving DecidableEq

/-- Modelled from the spec: CommQueue::cancelAll drains pending and
in-flight into completions (with canceled/error status). -/
def cancelAll (q : CommQueue) : CommQueue :=
  { request := [], inflight := [],
    completion := q.completion ++ q.inflight ++ q.request }

/-- The context state ThreadContext::_progress_nolock operates on: the
command queues, the peer, the exit flag, and a flag recording the fatal
"URPC req without corresponding cmd" exception. -/
structure CtxState where
  comq : CommQueue
  up : urpc_peer
  state_exit : Bool
  fatal : Bool

/-- Modelled from the spec: urpc_next_send_slot (not under src/)
returns a non-negative slot number exactly when the mailbox slot of the
next request to submit is free. -/
def urpc_next_send_slot_free (up : urpc_peer) : Bool :=
  decide ((up.send.tq.mb (REQ2SLOT (up.send.tq.last_put_req + 1))).cmd
            = URPC_CMD_NONE)

/-- The submit half of one _progress_nolock iteration
(src/aveo/src/ThreadContext.cpp:116): when the next send slot is free,
pop the head of the request queue; a host-side (VH) command runs and is
completed only when the in-flight queue is empty -- otherwise the
popped command is simply dropped (the unique_ptr goes out of scope); a
remote command whose submit thunk returns 0 moves to in-flight, and is
likewise dropped on a non-zero submit result. -/
def progressSend (st : CtxState) (recvd : Nat) : CtxState × Nat × Bool :=
  if urpc_next_send_slot_free st.up = false then
    (st, recvd, false)
  else
    match st.comq.request with
    | [] => (st, recvd, false)
    | cmd :: rest =>
      let st1 := { st with comq := { st.comq with request := rest } }
      match cmd.kind with
      | CmdKind.vh =>
        if st1.comq.inflight.isEmpty then
          ({ st1 with comq := { st1.comq with
              completion := st1.comq.completion ++ [cmd] } }, recvd + 1, false)
        else
          (st1, recvd, false)
      | CmdKind.remote =>
        if cmd.submit_rv = 0 then
          ({ st1 with comq := { st1.comq with
              inflight := st1.comq.inflight ++ [cmd] } }, recvd + 1, false)
        else
          (st1, recvd, false)

/-- One iteration of the do-while loop of _progress_nolock
(src/aveo/src/ThreadContext.cpp:85): try to receive a command reply
(popping the head of in-flight, running its result thunk, freeing the
slot and completing the command; a negative result thunk value sets the
exit state, cancels all queues and returns), then try to submit.
Returns (state, recvd + sent, early-return flag). -/
def progressIter (st : CtxState) : CtxState × Nat × Bool :=
  match urpc_get_cmd st.up.recv.tq with
  | some (req, m, tq1) =>
    match st.comq.inflight with
    | [] =>
      ({ st with fatal := true,
                 up := { st.up with recv := { st.up.recv with tq := tq1 } } },
       0, true)
    | cmd :: rest =>
      let rv := cmd.reply_rv
      let tq2 := urpc_slot_done tq1 (REQ2SLOT req) m
      let comq1 : CommQueue :=
        { st.comq with
          inflight := rest,
          completion := st.comq.completion ++ [cmd] }
      let st1 : CtxState :=
        { st with
          up := { st.up with recv := { st.up.recv with tq := tq2 } },
          comq := comq1 }
      if rv < 0 then
        ({ st1 with state_exit := true, comq := cancelAll st1.comq }, 1, true)
      else
        progressSend st1 1
  | none => progressSend st 0

/-- The do-while loop of _progress_nolock: iterate while the last
iteration made progress (recvd + sent > 0); the ops parameter is
decremented but otherwise ignored by the source (its loop-condition use
is commented out), so it does not appear; fuel bounds the modelled
iterations. -/
def _progress_nolock : Nat → CtxState → CtxState
  | 0, st => st
  | fuel + 1, st =>
    let r := progressIter st
    if r.2.2 then r.1
    else if 0 < r.2.1 then _progress_nolock fuel r.1
    else r.1

/-- An idle communicator: nothing outstanding, all slots free. -/
def plainComm : urpc_comm :=
  { tq := { mb := fun _ => urpc_mb.zero, sender_flags := 0, receiver_flags := 0,
            last_put_req := -1, last_get_req := -1 },
    mlist := fun _ => mlist_b.zero,
    free_begin := 0, free_end := URPC_DATA_BUFF_LEN }

/-- An idle peer: both directions empty, next send slot free. -/
def idlePeer : urpc_peer :=
  { send := plainComm, recv := plainComm, handler := fun _ => none }

/-- A remote command in flight. -/
def cmdRemote : VCommand := ⟨1, CmdKind.remote, 0, 0⟩

/-- A host-side command at the head of the request queue. -/
def cmdVH : VCommand := ⟨2, CmdKind.vh, 0, 0⟩

/-- Context with one remote command in flight and the VH command
pending. -/
def ctxWithInflight : CtxState :=
  { comq := { request := [cmdVH], inflight := [cmdRemote], completion := [] },
    up := idlePeer, state_exit := false, fatal := false }

/-- Context with an empty in-flight queue and the VH command pending. -/
def ctxNoInflight : CtxState :=
  { comq := { request := [cmdVH], inflight := [], completion := [] },
    up := idlePeer, state_exit := false, fatal := false }

/-- C1: the progress loop executes a host-side command only when the
in-flight queue is empty (with no in-flight command the VH command is
executed and completed), but when in-flight is non-empty the popped
host-side command is not deferred: after the loop it is in none of the
three queues -- the command object is destroyed, so it can never
execute or complete, contradicting the claim (and the specification's
push-front deferral and exactly-once completion guarantee). -/
theorem progress_vh_dropped_not_deferred :
    (_progress_nolock 2 ctxWithInflight).comq.request = [] ∧
    (_progress_nolock 2 ctxWithInflight).comq.inflight = [cmdRemote] ∧
    (_progress_nolock 2 ctxWithInflight).comq.completion = [] ∧
    (_progress_nolock 2 ctxNoInflight).comq.completion = [cmdVH] ∧
    (_progress_nolock 2 ctxNoInflight).comq.request = [] ∧
    (_progress_nolock 2 ctxNoInflight).comq.inflight = [] :=
  ⟨rfl, rfl, rfl, rfl, rfl, rfl⟩

/-- sizeof(void *) on the LP64 host: the byte count the defective call
memset(up, 0, sizeof(up)) actually zeroes, sizeof(up) being the size of
the pointer variable up, not of the struct (src/vh_urpc.c:62). -/
def vh_urpc_peer_create_zeroed_bytes : Nat := 8

/-- Modelled from the spec: a lower bound on sizeof(urpc_peer_t).  The
peer record owns at least the handler table indexed 0..URPC_MAX_HANDLERS
of 8-byte function pointers, besides two communicators, the segment ids
and the child pid. -/
def urpc_peer_t_min_size : Nat := (URPC_MAX_HANDLERS + 1) * 8

/-- C9: vh_urpc_peer_create zeroes only sizeof(up) = sizeof(void *) = 8
bytes of the freshly malloc'ed peer record, strictly fewer than the
record's size, so the record is not entirely zero-initialized. -/
theorem peer_create_memset_too_small :
    vh_urpc_peer_create_zeroed_bytes < urpc_peer_t_min_size := by decide

/-- One format-string character of the pack/unpack codec: I, L, P and
x as documented in src/urpc_common.c:426; other stands for any other
character, which both functions only report as an error and otherwise
skip. -/
inductive FmtC where
  | I
  | L
  | P
  | X
  | other
deriving DecidableEq

/-- One variadic send argument of urpc_generic_send: a 32-bit value, a
64-bit value, or a buffer given as its byte list ('x' and unknown
characters consume no argument). -/
inductive PackArg where
  | i (v : Nat)
  | l (v : Nat)
  | p (bytes : List Nat)
deriving DecidableEq

/-- Well-formedness of a send argument as the C parameter types give
it: a uint32_t, a uint64_t, and a size_t byte count. -/
def PackArg.WF : PackArg → Prop
  | PackArg.i v => v < 4294967296
  | PackArg.l v => v < 18446744073709551616
  | PackArg.p bs => bs.length < 18446744073709551616

/-- Payload memory is a byte store, a total function from offsets to
byte values (pointers into the shared data ring in the C code). -/
def writeBytesF : (Nat → Nat) → Nat → List Nat → Nat → Nat
  | buf, _, [] => buf
  | buf, pos, b :: bs => writeBytesF (fun i => if i = pos then b else buf i) (pos + 1) bs

/-- Little-endian bytes of a 32-bit store. -/
def u32Bytes (v : Nat) : List Nat :=
  [v % 256, v / 256 % 256, v / 65536 % 256, v / 16777216 % 256]

/-- Little-endian bytes of a 64-bit store. -/
def u64Bytes (v : Nat) : List Nat :=
  [v % 256, v / 256 % 256, v / 65536 % 256, v / 16777216 % 256,
   v / 4294967296 % 256, v / 1099511627776 % 256,
   v / 281474976710656 % 256, v / 72057594037927936 % 256]

/-- The size pass of urpc_generic_send (src/urpc_common.c:457): the
byte count the fields will occupy (I and x: 4, L: 8, P: 8 plus the
buffer length; unknown characters add nothing); none when the argument
list does not match the format string. -/
def sendSize : List FmtC → List PackArg → Option Nat
  | [], [] => some 0
  | FmtC.I :: f, PackArg.i _ :: a => (sendSize f a).map (4 + ·)
  | FmtC.L :: f, PackArg.l _ :: a => (sendSize f a).map (8 + ·)
  | FmtC.P :: f, PackArg.p bs :: a => (sendSize f a).map (8 + bs.length + ·)
  | FmtC.X :: f, a => (sendSize f a).map (4 + ·)
  | FmtC.other :: f, a => sendSize f a
  | _, _ => none

/-- The emit pass of urpc_generic_send (src/urpc_common.c:500): write
each field at its running offset into the payload (I: 4-byte store,
L: 8-byte store, P: 8-byte length followed by a memcpy of the bytes,
x: skip 4 bytes writing nothing, unknown: skip); returns the filled
byte store and the final offset; none when the argument list does not
match the format string. -/
def packEmit : List FmtC → List PackArg → Nat → (Nat → Nat) → Option ((Nat → Nat) × Nat)
  | [], [], pos, buf => some (buf, pos)
  | FmtC.I :: f, PackArg.i v :: a, pos, buf =>
    packEmit f a (pos + 4) (writeBytesF buf pos (u32Bytes v))
  | FmtC.L :: f, PackArg.l v :: a, pos, buf =>
    packEmit f a (pos + 8) (writeBytesF buf pos (u64Bytes v))
  | FmtC.P :: f, PackArg.p bs :: a, pos, buf =>
    packEmit f a (pos + 8 + bs.length)
      (writeBytesF (writeBytesF buf pos (u64Bytes bs.length)) (pos + 8) bs)
  | FmtC.X :: f, a, pos, buf => packEmit f a (pos + 4) buf
  | FmtC.other :: f, a, pos, buf => packEmit f a pos buf
  | _, _, _, _ => none

/-- One output of urpc_unpack_payload: an I or L value, or for P the
offset inside the payload that the returned aliasing pointer denotes,
with the length read from the payload. -/
inductive UnpackVal where
  | i (v : Nat)
  | l (v : Nat)
  | p (offs : Nat) (len : Nat)
deriving DecidableEq

/-- 32-bit little-endian read from the byte store. -/
def readU32 (mem : Nat → Nat) (pos : Nat) : Nat :=
  mem pos % 256 + 256 * (mem (pos + 1) % 256) + 65536 * (mem (pos + 2) % 256)
    + 16777216 * (mem (pos + 3) % 256)

/-- 64-bit little-endian read from the byte store. -/
def readU64 (mem : Nat → Nat) (pos : Nat) : Nat :=
  readU32 mem pos + 4294967296 * readU32 mem (pos + 4)

/-- The loop of urpc_unpack_payload (src/urpc_common.c:584): run while
format characters remain and lsz has not gone negative; I reads 4
bytes, L reads 8, P reads an 8-byte length n and then skips n payload
bytes recording the aliasing offset, x skips 4 bytes, unknown
characters only report.  Returns the collected values and the final
lsz. -/
def unpackLoop (mem : Nat → Nat) :
    List FmtC → Nat → Int → List UnpackVal → List UnpackVal × Int
  | [], _, lsz, acc => (acc, lsz)
  | FmtC.I :: f, pos, lsz, acc =>
    if lsz < 0 then (acc, lsz)
    else unpackLoop mem f (pos + 4) (lsz - 4) (acc ++ [UnpackVal.i (readU32 mem pos)])
  | FmtC.L :: f, pos, lsz, acc =>
    if lsz < 0 then (acc, lsz)
    else unpackLoop mem f (pos + 8) (lsz - 8) (acc ++ [UnpackVal.l (readU64 mem pos)])
  | FmtC.P :: f, pos, lsz, acc =>
    if lsz < 0 then (acc, lsz)
    else
      unpackLoop mem f (pos + 8 + readU64 mem pos)
        (lsz - 8 - (readU64 mem pos : Int))
        (acc ++ [UnpackVal.p (pos + 8) (readU64 mem pos)])
  | FmtC.X :: f, pos, lsz, acc =>
    if lsz < 0 then (acc, lsz)
    else unpackLoop mem f (pos + 4) (lsz - 4) acc
  | FmtC.other :: f, pos, lsz, acc =>
    if lsz < 0 then (acc, lsz)
    else unpackLoop mem f pos lsz acc

/-- urpc_unpack_payload (src/urpc_common.c:569): lsz starts as the
payload size psz cast from size_t to signed long; the result code is
-1 when lsz went negative (payload exhausted before the format was
consumed), 0 otherwise. -/
def urpc_unpack_payload (mem : Nat → Nat) (psz : Nat) (fmt : List FmtC) :
    List UnpackVal × Int :=
  let lsz0 : Int :=
    if psz < 9223372036854775808 then (psz : Int)
    else (psz : Int) - 18446744073709551616
  let r := unpackLoop mem fmt 0 lsz0 []
  (r.1, if r.2 < 0 then -1 else 0)

/-- The total byte count a format string requires of a payload, each P
field's length being read from the payload itself at its running
offset. -/
def requiredBytes (mem : Nat → Nat) : List FmtC → Nat → Nat
  | [], _ => 0
  | FmtC.I :: f, pos => 4 + requiredBytes mem f (pos + 4)
  | FmtC.L :: f, pos => 8 + requiredBytes mem f (pos + 8)
  | FmtC.P :: f, pos =>
    let n := readU64 mem pos
    8 + n + requiredBytes mem f (pos + 8 + n)
  | FmtC.X :: f, pos => 4 + requiredBytes mem f (pos + 4)
  | FmtC.other :: f, pos => requiredBytes mem f pos

theorem unpackLoop_neg (mem : Nat → Nat) :
    ∀ (fmt : List FmtC) (pos : Nat) (lsz : Int) (acc : List UnpackVal),
    lsz < 0 → (unpackLoop mem fmt pos lsz acc).2 = lsz := by
  intro fmt
  cases fmt with
  | nil => intro pos lsz acc _; rfl
  | cons c f =>
    intro pos lsz acc h
    cases c <;> rw [unpackLoop, if_pos h]

theorem unpackLoop_short_iff (mem : Nat → Nat) :
    ∀ (fmt : List FmtC) (pos : Nat) (lsz : Int) (acc : List UnpackVal),
    0 ≤ lsz →
    ((unpackLoop mem fmt pos lsz acc).2 < 0 ↔
      lsz < (requiredBytes mem fmt pos : Int)) := by
  intro fmt
  induction fmt with
  | nil =>
    intro pos lsz acc hlsz
    rw [unpackLoop, requiredBytes]
    constructor
    · intro h; omega
    · intro h; omega
  | cons c f ih =>
    intro pos lsz acc hlsz
    cases c with
    | I =>
      rw [unpackLoop, if_neg (by omega), requiredBytes]
      by_cases h4 : 0 ≤ lsz - 4
      · rw [ih (pos + 4) (lsz - 4) _ h4]
        push_cast
        omega
      · rw [unpackLoop_neg mem f (pos + 4) (lsz - 4) _ (by omega)]
        push_cast
        omega
    | L =>
      rw [unpackLoop, if_neg (by omega), requiredBytes]
      by_cases h8 : 0 ≤ lsz - 8
      · rw [ih (pos + 8) (lsz - 8) _ h8]
        push_cast
        omega
      · rw [unpackLoop_neg mem f (pos + 8) (lsz - 8) _ (by omega)]
        push_cast
        omega
    | P =>
      rw [unpackLoop, if_neg (by omega), requiredBytes]
      by_cases hn : 0 ≤ lsz - 8 - (readU64 mem pos : Int)
      · rw [ih (pos + 8 + readU64 mem pos) (lsz - 8 - (readU64 mem pos : Int)) _ hn]
        push_cast
        omega
      · rw [unpackLoop_neg mem f (pos + 8 + readU64 mem pos)
              (lsz - 8 - (readU64 mem pos : Int)) _ (by omega)]
        push_cast
        omega
    | X =>
      rw [unpackLoop, if_neg (by omega), requiredBytes]
      by_cases h4 : 0 ≤ lsz - 4
      · rw [ih (pos + 4) (lsz - 4) _ h4]
        push_cast
        omega
      · rw [unpackLoop_neg mem f (pos + 4) (lsz - 4) _ (by omega)]
        push_cast
        omega
    | other =>
      rw [unpackLoop, if_neg (by omega), requiredBytes]
      exact ih pos lsz acc hlsz

/-- C6: for payload sizes in the range of the size_t-to-long cast,
urpc_unpack_payload returns -1 exactly when the total bytes the format
string requires -- P lengths read from the payload included -- exceed
psz, and returns 0 exactly otherwise. -/
theorem unpack_payload_short_iff (mem : Nat → Nat) (psz : Nat) (fmt : List FmtC)
    (hpsz : psz < 9223372036854775808) :
    ((urpc_unpack_payload mem psz fmt).2 = -1 ↔
      psz < requiredBytes mem fmt 0) ∧
    ((urpc_unpack_payload mem psz fmt).2 = 0 ↔
      requiredBytes mem fmt 0 ≤ psz) := by
  rw [urpc_unpack_payload]
  rw [if_pos hpsz]
  have h := unpackLoop_short_iff mem fmt 0 (psz : Int) [] (by positivity)
  dsimp only
  constructor
  · constructor
    · intro hr
      by_cases hneg : (unpackLoop mem fmt 0 (psz : Int) []).2 < 0
      · have := h.mp hneg
        omega
      · rw [if_neg hneg] at hr
        exact absurd hr (by decide)
    · intro hr
      rw [if_pos (h.mpr (by omega))]
  · constructor
    · intro hr
      by_cases hneg : (unpackLoop mem fmt 0 (psz : Int) []).2 < 0
      · rw [if_pos hneg] at hr
        exact absurd hr (by decide)
      · have : ¬ ((psz : Int) < (requiredBytes mem fmt 0 : Int)) := fun hc => hneg (h.mpr hc)
        omega
    · intro hr
      rw [if_neg (fun hc => by have := h.mp hc; omega)]

/-- Witness for unpack_payload_short_iff: empty format, empty payload:
rc = 0 and 0 bytes required. -/
theorem unpack_payload_short_iff_witness :
    (0 : Nat) < 9223372036854775808 ∧
    ((urpc_unpack_payload (fun _ => 0) 0 []).2 = -1 ↔
      (0 : Nat) < requiredBytes (fun _ => 0) [] 0) :=
  ⟨by decide, (unpack_payload_short_iff (fun _ => 0) 0 [] (by decide)).1⟩

/-- Correspondence between one unpacked value and the original send
argument: I and L roundtrip the value; P yields the original length and
the original bytes at the aliasing offset. -/
def Corresponds (mem : Nat → Nat) : UnpackVal → PackArg → Prop
  | UnpackVal.i v, PackArg.i w => v = w
  | UnpackVal.l v, PackArg.l w => v = w
  | UnpackVal.p offs n, PackArg.p bs =>
      n = bs.length ∧ ∀ j, j < bs.length → mem (offs + j) = bs.getD j 0
  | _, _ => False

theorem writeBytesF_out :
    ∀ (bs : List Nat) (buf : Nat → Nat) (pos i : Nat),
    i < pos ∨ pos + bs.length ≤ i → writeBytesF buf pos bs i = buf i := by
  intro bs
  induction bs with
  | nil => intro buf pos i _; rfl
  | cons b bs ih =>
    intro buf pos i hi
    rw [writeBytesF]
    have hi1 : i < pos + 1 ∨ pos + 1 + bs.length ≤ i := by
      rcases hi with h | h
      · left; omega
      · right
        simp only [List.length_cons] at h
        omega
    have hne : i ≠ pos := by
      rcases hi with h | h
      · omega
      · simp only [List.length_cons] at h
        omega
    rw [ih _ (pos + 1) i hi1, if_neg hne]

theorem writeBytesF_at :
    ∀ (bs : List Nat) (buf : Nat → Nat) (pos j : Nat),
    j < bs.length → writeBytesF buf pos bs (pos + j) = bs.getD j 0 := by
  intro bs
  induction bs with
  | nil => intro buf pos j hj; simp at hj
  | cons b bs ih =>
    intro buf pos j hj
    rw [writeBytesF]
    cases j with
    | zero =>
      rw [writeBytesF_out bs _ (pos + 1) (pos + 0) (by omega)]
      rw [if_pos (by omega)]
      rfl
    | succ j1 =>
      have he : pos + (j1 + 1) = (pos + 1) + j1 := by omega
      rw [he, ih _ (pos + 1) j1 (by simp at hj; omega)]
      rfl

theorem readU32_bytes (mem : Nat → Nat) (pos v : Nat)
    (h : ∀ j, j < 4 → mem (pos + j) = (u32Bytes v).getD j 0) :
    readU32 mem pos = v % 4294967296 := by
  have h0 : mem (pos + 0) = v % 256 := h 0 (by omega)
  have h1 : mem (pos + 1) = v / 256 % 256 := h 1 (by omega)
  have h2 : mem (pos + 2) = v / 65536 % 256 := h 2 (by omega)
  have h3 : mem (pos + 3) = v / 16777216 % 256 := h 3 (by omega)
  rw [Nat.add_zero] at h0
  rw [readU32, h0, h1, h2, h3]
  omega

theorem readU64_bytes (mem : Nat → Nat) (pos v : Nat)
    (h : ∀ j, j < 8 → mem (pos + j) = (u64Bytes v).getD j 0) :
    readU64 mem pos = v % 18446744073709551616 := by
  have h0 : mem (pos + 0) = v % 256 := h 0 (by omega)
  have h1 : mem (pos + 1) = v / 256 % 256 := h 1 (by omega)
  have h2 : mem (pos + 2) = v / 65536 % 256 := h 2 (by omega)
  have h3 : mem (pos + 3) = v / 16777216 % 256 := h 3 (by omega)
  have h4 : mem (pos + 4) = v / 4294967296 % 256 := h 4 (by omega)
  have h5 : mem (pos + 4 + 1) = v / 1099511627776 % 256 := by
    have e : pos + 4 + 1 = pos + 5 := by omega
    rw [e]; exact h 5 (by omega)
  have h6 : mem (pos + 4 + 2) = v / 281474976710656 % 256 := by
    have e : pos + 4 + 2 = pos + 6 := by omega
    rw [e]; exact h 6 (by omega)
  have h7 : mem (pos + 4 + 3) = v / 72057594037927936 % 256 := by
    have e : pos + 4 + 3 = pos + 7 := by omega
    rw [e]; exact h 7 (by omega)
  rw [Nat.add_zero] at h0
  rw [readU64, readU32, readU32, h0, h1, h2, h3, h4, h5, h6, h7]
  omega

theorem packEmit_props :
    ∀ (fmt : List FmtC) (args : List PackArg) (pos : Nat) (buf buf2 : Nat → Nat)
      (endPos : Nat),
    packEmit fmt args pos buf = some (buf2, endPos) →
    pos ≤ endPos ∧ (∀ i, i < pos → buf2 i = buf i) := by
  intro fmt
  induction fmt with
  | nil =>
    intro args pos buf buf2 endPos h
    cases args with
    | nil =>
      rw [packEmit] at h
      have hp := Option.some.inj h
      have h1 := congrArg Prod.fst hp
      have h2 := congrArg Prod.snd hp
      dsimp only at h1 h2
      subst h1
      subst h2
      exact ⟨le_refl _, fun i _ => rfl⟩
    | cons a as =>
      cases a <;> exact Option.noConfusion h
  | cons c f ih =>
    intro args pos buf buf2 endPos h
    cases c with
    | I =>
      cases args with
      | nil => exact Option.noConfusion h
      | cons a as =>
        cases a with
        | i v =>
          rw [packEmit] at h
          obtain ⟨hle, hlow⟩ := ih as (pos + 4) _ buf2 endPos h
          refine ⟨by omega, fun i hi => ?_⟩
          rw [hlow i (by omega), writeBytesF_out _ _ _ _ (by omega)]
        | l v => exact Option.noConfusion h
        | p bs => exact Option.noConfusion h
    | L =>
      cases args with
      | nil => exact Option.noConfusion h
      | cons a as =>
        cases a with
        | l v =>
          rw [packEmit] at h
          obtain ⟨hle, hlow⟩ := ih as (pos + 8) _ buf2 endPos h
          refine ⟨by omega, fun i hi => ?_⟩
          rw [hlow i (by omega), writeBytesF_out _ _ _ _ (by omega)]
        | i v => exact Option.noConfusion h
        | p bs => exact Option.noConfusion h
    | P =>
      cases args with
      | nil => exact Option.noConfusion h
      | cons a as =>
        cases a with
        | p bs =>
          rw [packEmit] at h
          obtain ⟨hle, hlow⟩ := ih as (pos + 8 + bs.length) _ buf2 endPos h
          refine ⟨by omega, fun i hi => ?_⟩
          rw [hlow i (by omega),
              writeBytesF_out _ _ _ _ (by left; omega),
              writeBytesF_out _ _ _ _ (by left; omega)]
        | i v => exact Option.noConfusion h
        | l v => exact Option.noConfusion h
    | X =>
      rw [packEmit] at h
      obtain ⟨hle, hlow⟩ := ih args (pos + 4) _ buf2 endPos h
      exact ⟨by omega, fun i hi => hlow i (by omega)⟩
    | other =>
      rw [packEmit] at h
      exact ih args pos _ buf2 endPos h

theorem packEmit_unpack :
    ∀ (fmt : List FmtC) (args : List PackArg) (pos : Nat) (buf buf2 : Nat → Nat)
      (endPos : Nat),
    packEmit fmt args pos buf = some (buf2, endPos) →
    (∀ a ∈ args, PackArg.WF a) →
    ∀ lsz : Int, ((endPos - pos : Nat) : Int) ≤ lsz →
    ∀ acc : List UnpackVal,
    ∃ vals,
      (unpackLoop buf2 fmt pos lsz acc).1 = acc ++ vals ∧
      (unpackLoop buf2 fmt pos lsz acc).2 = lsz - ((endPos - pos : Nat) : Int) ∧
      List.Forall₂ (Corresponds buf2) vals args := by
  intro fmt
  induction fmt with
  | nil =>
    intro args pos buf buf2 endPos h hwf lsz hlsz acc
    cases args with
    | nil =>
      rw [packEmit] at h
      have hp := Option.some.inj h
      have h2 := congrArg Prod.snd hp
      dsimp only at h2
      subst h2
      refine ⟨[], ?_, ?_, List.Forall₂.nil⟩
      · rw [unpackLoop]
        simp
      · rw [unpackLoop]
        simp
    | cons a as => cases a <;> exact Option.noConfusion h
  | cons c f ih =>
    intro args pos buf buf2 endPos h hwf lsz hlsz acc
    cases c with
    | I =>
      cases args with
      | nil => exact Option.noConfusion h
      | cons a as =>
        cases a with
        | i v =>
          rw [packEmit] at h
          obtain ⟨hle, hlow⟩ := packEmit_props f as (pos + 4) _ buf2 endPos h
          have hwfv : v < 4294967296 := hwf (PackArg.i v) (List.mem_cons_self _ _)
          have hval : readU32 buf2 pos = v := by
            have hb : ∀ j, j < 4 → buf2 (pos + j) = (u32Bytes v).getD j 0 := by
              intro j hj
              rw [hlow (pos + j) (by omega)]
              exact writeBytesF_at (u32Bytes v) buf pos j hj
            rw [readU32_bytes buf2 pos v hb]
            omega
          have hguard : ¬ (lsz < 0) := by omega
          obtain ⟨vals, hv1, hv2, hv3⟩ := ih as (pos + 4) _ buf2 endPos h
            (fun b hb => hwf b (List.mem_cons_of_mem _ hb))
            (lsz - 4) (by omega) (acc ++ [UnpackVal.i (readU32 buf2 pos)])
          refine ⟨UnpackVal.i v :: vals, ?_, ?_, ?_⟩
          · rw [unpackLoop, if_neg hguard, hv1, hval]
            simp
          · rw [unpackLoop, if_neg hguard, hv2]
            omega
          · exact List.Forall₂.cons rfl hv3
        | l v => exact Option.noConfusion h
        | p bs => exact Option.noConfusion h
    | L =>
      cases args with
      | nil => exact Option.noConfusion h
      | cons a as =>
        cases a with
        | l v =>
          rw [packEmit] at h
          obtain ⟨hle, hlow⟩ := packEmit_props f as (pos + 8) _ buf2 endPos h
          have hwfv : v < 18446744073709551616 :=
            hwf (PackArg.l v) (List.mem_cons_self _ _)
          have hval : readU64 buf2 pos = v := by
            have hb : ∀ j, j < 8 → buf2 (pos + j) = (u64Bytes v).getD j 0 := by
              intro j hj
              rw [hlow (pos + j) (by omega)]
              exact writeBytesF_at (u64Bytes v) buf pos j hj
            rw [readU64_bytes buf2 pos v hb]
            omega
          have hguard : ¬ (lsz < 0) := by omega
          obtain ⟨vals, hv1, hv2, hv3⟩ := ih as (pos + 8) _ buf2 endPos h
            (fun b hb => hwf b (List.mem_cons_of_mem _ hb))
            (lsz - 8) (by omega) (acc ++ [UnpackVal.l (readU64 buf2 pos)])
          refine ⟨UnpackVal.l v :: vals, ?_, ?_, ?_⟩
          · rw [unpackLoop, if_neg hguard, hv1, hval]
            simp
          · rw [unpackLoop, if_neg hguard, hv2]
            omega
          · exact List.Forall₂.cons rfl hv3
        | i v => exact Option.noConfusion h
        | p bs => exact Option.noConfusion h
    | P =>
      cases args with
      | nil => exact Option.noConfusion h
      | cons a as =>
        cases a with
        | p bs =>
          rw [packEmit] at h
          obtain ⟨hle, hlow⟩ := packEmit_props f as (pos + 8 + bs.length) _ buf2 endPos h
          have hwfb : bs.length < 18446744073709551616 :=
            hwf (PackArg.p bs) (List.mem_cons_self _ _)
          have hlen : readU64 buf2 pos = bs.length := by
            have hb : ∀ j, j < 8 → buf2 (pos + j) = (u64Bytes bs.length).getD j 0 := by
              intro j hj
              rw [hlow (pos + j) (by omega)]
              rw [writeBytesF_out bs _ (pos + 8) (pos + j) (by left; omega)]
              exact writeBytesF_at (u64Bytes bs.length) buf pos j hj
            rw [readU64_bytes buf2 pos bs.length hb]
            omega
          have hbytes : ∀ j, j < bs.length → buf2 (pos + 8 + j) = bs.getD j 0 := by
            intro j hj
            rw [hlow (pos + 8 + j) (by omega)]
            exact writeBytesF_at bs _ (pos + 8) j hj
          have hguard : ¬ (lsz < 0) := by omega
          obtain ⟨vals, hv1, hv2, hv3⟩ := ih as (pos + 8 + bs.length) _ buf2 endPos h
            (fun b hb => hwf b (List.mem_cons_of_mem _ hb))
            (lsz - 8 - (bs.length : Int)) (by omega)
            (acc ++ [UnpackVal.p (pos + 8) bs.length])
          refine ⟨UnpackVal.p (pos + 8) bs.length :: vals, ?_, ?_, ?_⟩
          · rw [unpackLoop, if_neg hguard, hlen, hv1]
            simp
          · rw [unpackLoop, if_neg hguard, hlen, hv2]
            omega
          · exact List.Forall₂.cons ⟨rfl, hbytes⟩ hv3
        | i v => exact Option.noConfusion h
        | l v => exact Option.noConfusion h
    | X =>
      rw [packEmit] at h
      obtain ⟨hle, _⟩ := packEmit_props f args (pos + 4) _ buf2 endPos h
      have hguard : ¬ (lsz < 0) := by omega
      obtain ⟨vals, hv1, hv2, hv3⟩ := ih args (pos + 4) _ buf2 endPos h hwf
        (lsz - 4) (by omega) acc
      refine ⟨vals, ?_, ?_, hv3⟩
      · rw [unpackLoop, if_neg hguard, hv1]
      · rw [unpackLoop, if_neg hguard, hv2]
        omega
    | other =>
      rw [packEmit] at h
      obtain ⟨hle, _⟩ := packEmit_props f args pos _ buf2 endPos h
      have hguard : ¬ (lsz < 0) := by omega
      obtain ⟨vals, hv1, hv2, hv3⟩ := ih args pos _ buf2 endPos h hwf lsz hlsz acc
      refine ⟨vals, ?_, ?_, hv3⟩
      · rw [unpackLoop, if_neg hguard, hv1]
      · rw [unpackLoop, if_neg hguard, hv2]

/-- C5: packing a matching argument list with urpc_generic_send's
packing algorithm and unpacking the resulting payload (of size ALIGN8B
of the packed length, as the send path allocates it) with the same
format string succeeds (rc 0) and returns one value per argument: the
original I and L values, and for each P field the original length and
the original bytes at the offset its aliasing pointer denotes inside
the packed buffer. -/
theorem pack_unpack_roundtrip (fmt : List FmtC) (args : List PackArg)
    (buf buf2 : Nat → Nat) (endPos : Nat)
    (hpack : packEmit fmt args 0 buf = some (buf2, endPos))
    (hwf : ∀ a ∈ args, PackArg.WF a)
    (hsz : endPos + 7 < 4294967296) :
    (urpc_unpack_payload buf2 (ALIGN8B endPos) fmt).2 = 0 ∧
    List.Forall₂ (Corresponds buf2)
      (urpc_unpack_payload buf2 (ALIGN8B endPos) fmt).1 args := by
  have hA1 : endPos ≤ ALIGN8B endPos := by
    rw [ALIGN8B]
    omega
  have hA2 : ALIGN8B endPos < 4294967296 := by
    rw [ALIGN8B]
    omega
  obtain ⟨vals, hv1, hv2, hv3⟩ := packEmit_unpack fmt args 0 buf buf2 endPos hpack hwf
    ((ALIGN8B endPos : Nat) : Int) (by omega) []
  simp only [urpc_unpack_payload]
  rw [if_pos (by omega : ALIGN8B endPos < 9223372036854775808)]
  constructor
  · rw [hv2, if_neg (by omega)]
  · rw [hv1]
    simpa using hv3

/-- Witness for pack_unpack_roundtrip: a single I field with value 7
packed into zeroed memory; unpack returns rc 0. -/
theorem pack_unpack_roundtrip_witness :
    packEmit [FmtC.I] [PackArg.i 7] 0 (fun _ => 0)
      = some (writeBytesF (fun _ => 0) 0 (u32Bytes 7), 4) ∧
    (4 : Nat) + 7 < 4294967296 ∧
    (urpc_unpack_payload (writeBytesF (fun _ => 0) 0 (u32Bytes 7))
       (ALIGN8B 4) [FmtC.I]).2 = 0 :=
  ⟨rfl, by decide,
   (pack_unpack_roundtrip [FmtC.I] [PackArg.i 7] (fun _ => 0)
      (writeBytesF (fun _ => 0) 0 (u32Bytes 7)) 4 rfl
      (fun a ha => by
        rw [List.mem_singleton] at ha
        subst ha
        show (7 : Nat) < 4294967296
        decide)
      (by decide)).1⟩

end VeUrpc
